import Mathlib

/-!
# execdir: alias store and path resolution

A shallow embedding of `src/execdir.c`.

* A C string is a `List Char` (one `Char` per byte); a reader stops at the
  first NUL, as `strlen`, `strdup` and `%s` do.
* The process state is an explicit `World` value: the directory tree, the
  working directory, the environment, the committed content of the LMDB
  environment, and what was written to stdout and stderr.
* `exit` is the `Run.exit` result; a function that returns yields `Run.ret`.
* LMDB and the operating system are external to the repository.  They are
  modelled by their documented functional contract: `mdb_get` and `mdb_del`
  return `MDB_NOTFOUND` for a missing key, `mdb_put` without flags inserts
  or overwrites, a cursor walks the keys in order, `mkdir`/`stat`/`chdir`
  resolve a pathname component by component.  Resource failures (memory
  allocation, map size, key size limits, I/O errors, permissions) are
  outside the model: the calls that can only fail that way return 0.
-/

namespace Execdir

/-! ## C strings -/

/-- The terminating byte of a C string. -/
def NUL : Char := Char.ofNat 0

/-- The bytes a C reader sees at a `char *`: everything before the first NUL. -/
def c_str (s : List Char) : List Char := s.takeWhile (fun c => c != NUL)

/-- C `strlen`. -/
def strlen (s : List Char) : Nat := (c_str s).length

/-- Source `xstrdup` (lines 24-34): a copy of the string up to its terminator. -/
def xstrdup (s : List Char) : List Char := c_str s

/-- The `%.*s` conversion of `printf`: at most `prec` bytes, stopping at a NUL;
a negative precision is taken as if it were omitted. -/
def printf_prec (prec : Int) (data : List Char) : List Char :=
  if prec < 0 then c_str data else c_str (data.take prec.toNat)

def EXIT_SUCCESS : Nat := 0
def EXIT_FAILURE : Nat := 1

def ENOENT : Nat := 2
def EACCES : Nat := 13
def EEXIST : Nat := 17
def ENOTDIR : Nat := 20

/-- C `strerror` on the error numbers the model produces. -/
def strerror (e : Nat) : List Char :=
  if e = ENOENT then "No such file or directory".toList
  else if e = EACCES then "Permission denied".toList
  else if e = EEXIST then "File exists".toList
  else if e = ENOTDIR then "Not a directory".toList
  else "Unknown error".toList

/-! ## LMDB -/

/-- An `MDB_val`: `mv_size` bytes at `mv_data`. -/
abbrev MDB_val := List Char

/-- The default table of an LMDB environment: key/data pairs. -/
abbrev Table := List (MDB_val × MDB_val)

def MDB_NOTFOUND : Int := -30798
def MDB_RDONLY : Nat := 0x20000

/-- LMDB's default key order: bytewise lexicographic, a proper prefix first. -/
def mdb_cmp_lt : MDB_val → MDB_val → Bool
  | [], [] => false
  | [], _ :: _ => true
  | _ :: _, [] => false
  | a :: as, b :: bs =>
    if a.toNat < b.toNat then true
    else if b.toNat < a.toNat then false
    else mdb_cmp_lt as bs

/-- LMDB `mdb_get`: return code and data of the record with this key. -/
def mdb_get : Table → MDB_val → Int × MDB_val
  | [], _ => (MDB_NOTFOUND, [])
  | (k, v) :: rest, key => if k = key then (0, v) else mdb_get rest key

/-- The table after a successful `mdb_put` with flags 0: the record with this
key is replaced, or a new record is inserted at its place in key order. -/
def table_put : Table → MDB_val → MDB_val → Table
  | [], key, data => [(key, data)]
  | (k, v) :: rest, key, data =>
    if k = key then (key, data) :: rest
    else if mdb_cmp_lt key k then (key, data) :: (k, v) :: rest
    else (k, v) :: table_put rest key data

/-- The table without the record of this key. -/
def table_del : Table → MDB_val → Table
  | [], _ => []
  | (k, v) :: rest, key => if k = key then rest else (k, v) :: table_del rest key

/-- LMDB `mdb_put` with flags 0, in a transaction begun with `txn_flags`. -/
def mdb_put (txn_flags : Nat) (t : Table) (key data : MDB_val) : Int × Table :=
  if txn_flags = MDB_RDONLY then ((EACCES : Nat), t) else (0, table_put t key data)

/-- LMDB `mdb_del`: `MDB_NOTFOUND` when the key is not in the table. -/
def mdb_del (txn_flags : Nat) (t : Table) (key : MDB_val) : Int × Table :=
  if txn_flags = MDB_RDONLY then ((EACCES : Nat), t)
  else if (mdb_get t key).1 = 0 then (0, table_del t key)
  else (MDB_NOTFOUND, t)

/-- LMDB `mdb_strerror`. -/
def mdb_strerror (rc : Int) : List Char :=
  if rc = 0 then "Successful return: 0".toList
  else if rc = MDB_NOTFOUND then "MDB_NOTFOUND: No matching key/data pair found".toList
  else if 0 < rc then strerror rc.toNat
  else "Invalid error code".toList

/-! ## The process state -/

/-- A directory or file of the tree: its components from the root, innermost
first; the root is `[]`. -/
abbrev Loc := List (List Char)

structure World where
  /-- the directories other than the root -/
  dirs : List Loc
  /-- everything in the tree that is not a directory -/
  files : List Loc
  /-- the current working directory -/
  cwd : Loc
  /-- what `pathconf(".", _PC_PATH_MAX)` returns; `none` for -1 -/
  path_max : Option Nat
  /-- the environment variables -/
  env : List (List Char × List Char)
  /-- home directory in the passwd entry of the user; `none` when `getpwuid` fails -/
  pw_dir : Option (List Char)
  /-- committed content of the LMDB environment -/
  db : Table
  stdout : List Char
  stderr : List Char
  /-- every `mkdir` call so far, with the error number it gave (0 on success) -/
  mkdirs : List (List Char × Nat)
deriving DecidableEq

/-- Result of a function that may call `exit`. -/
inductive Run (α : Type) where
  | ret (a : α) (w : World)
  | exit (status : Nat) (w : World)
deriving DecidableEq

/-- The state a run ends in. -/
def Run.world {α : Type} : Run α → World
  | .ret _ w => w
  | .exit _ w => w

def fputs_stdout (w : World) (s : List Char) : World := { w with stdout := w.stdout ++ s }
def fputs_stderr (w : World) (s : List Char) : World := { w with stderr := w.stderr ++ s }

/-- Source macro `print_error` (line 20): the message on stderr after the
prefix `execdir: `. -/
def print_error (w : World) (msg : List Char) : World :=
  fputs_stderr w ("execdir: ".toList ++ msg)

def getenv (w : World) (name : List Char) : Option (List Char) :=
  (w.env.find? (fun e => e.1 = name)).map (fun e => e.2)

/-- C `setenv` with overwrite. -/
def setenv (w : World) (name value : List Char) : World :=
  { w with env := (name, c_str value) :: w.env.filter (fun e => e.1 != name) }

/-! ## The directory tree -/

def isDir (w : World) (l : Loc) : Bool := l = [] || l ∈ w.dirs
def isFile (w : World) (l : Loc) : Bool := l ∈ w.files

/-- Where one pathname component leads from directory `cur`, regardless of what
exists: an empty component and `.` stay, `..` goes to the parent. -/
def lexstep (cur : Loc) (c : List Char) : Loc :=
  if c = [] ∨ c = ['.'] then cur
  else if c = ['.', '.'] then cur.tail
  else c :: cur

/-- One step of pathname resolution: the component must lead to a directory. -/
def step (w : World) (cur : Loc) (c : List Char) : Except Nat Loc :=
  if isDir w (lexstep cur c) then .ok (lexstep cur c)
  else if isFile w (lexstep cur c) then .error ENOTDIR
  else .error ENOENT

/-- Resolve the rest of a pathname from directory `cur`, with `acc` the
bytes of the current component read so far (last first): every component,
the last one included, must be a directory. -/
def namei (w : World) : Loc → List Char → List Char → Except Nat Loc
  | cur, acc, [] => step w cur acc.reverse
  | cur, acc, c :: rest =>
    if c = '/' then
      match step w cur acc.reverse with
      | .ok l => namei w l [] rest
      | .error e => .error e
    else namei w cur (c :: acc) rest

/-- Resolve all of a pathname but its last component: the directory reached
and that last component (empty for a pathname of slashes only); slashes
after the last component are ignored. -/
def namei_parent (w : World) : Loc → List Char → List Char → Except Nat (Loc × List Char)
  | cur, acc, [] => .ok (cur, acc.reverse)
  | cur, acc, c :: rest =>
    if c = '/' then
      if rest.all (fun d => d = '/') then .ok (cur, acc.reverse)
      else
        match step w cur acc.reverse with
        | .ok l => namei_parent w l [] rest
        | .error e => .error e
    else namei_parent w cur (c :: acc) rest

/-- The directory a pathname is resolved from: the root for an absolute
pathname, the working directory otherwise. -/
def start_dir (w : World) (path : List Char) : Loc :=
  if path.head? = some '/' then [] else w.cwd

/-- The test `stat(path, &st) != -1 && S_ISDIR(st.st_mode)`. -/
def is_dir (w : World) (path : List Char) : Bool :=
  match c_str path with
  | [] => false
  | p => match namei w (start_dir w p) [] p with
    | .ok _ => true
    | .error _ => false

/-- The system call `mkdir(path, 0755)`: the state after the call and the error
number, 0 on success.  The call is recorded in `mkdirs`. -/
def mkdir (w : World) (path : List Char) : World × Nat :=
  let p := c_str path
  let r : World × Nat :=
    match p with
    | [] => (w, ENOENT)
    | _ =>
      match namei_parent w (start_dir w p) [] p with
      | .error e => (w, e)
      | .ok (par, c) =>
        if c = [] ∨ c = ['.'] ∨ c = ['.', '.'] then (w, EEXIST)
        else if isDir w (c :: par) ∨ isFile w (c :: par) then (w, EEXIST)
        else ({ w with dirs := (c :: par) :: w.dirs }, 0)
  ({ r.1 with mkdirs := r.1.mkdirs ++ [(p, r.2)] }, r.2)

/-- The system call `chdir(path)`: the new state, or the error number. -/
def chdir (w : World) (path : List Char) : Except Nat World :=
  match c_str path with
  | [] => .error ENOENT
  | p => match namei w (start_dir w p) [] p with
    | .ok l => .ok { w with cwd := l }
    | .error e => .error e

/-- The absolute pathname of a directory of the tree. -/
def pathname : Loc → List Char
  | [] => ['/']
  | [c] => '/' :: c
  | c :: d :: rest => pathname (d :: rest) ++ '/' :: c

/-- C `getcwd(buf, size)`: fails when the pathname and its terminator do not
fit in `size` bytes. -/
def getcwd (w : World) (size : Nat) : Option (List Char) :=
  if (pathname w.cwd).length + 1 ≤ size then some (pathname w.cwd) else none

/-- Source `xgetcwd` (lines 114-130). -/
def xgetcwd (w : World) : Option (List Char) :=
  match w.path_max with
  | none => none
  | some size => getcwd w size

/-- C `perror`. -/
def perror (w : World) (msg : List Char) (errno : Nat) : World :=
  fputs_stderr w (msg ++ ": ".toList ++ strerror errno ++ ['\n'])

/-- The loop of `create_directory` (lines 42-55): `done` is the part of `temp`
before `p`, `rest` the part from `p` on.  At a slash that is not the first
byte, `temp` is cut at `p` for the `mkdir` call, so the call sees `done`. -/
def create_directory_loop (w : World) (done : List Char) : List Char → World × Int
  | [] => (w, 0)
  | c :: rest =>
    if c = '/' ∧ done ≠ [] then
      let r := mkdir w done
      if r.2 ≠ 0 ∧ r.2 ≠ EEXIST then (perror r.1 "mkdir failed".toList r.2, -1)
      else create_directory_loop r.1 (done ++ [c]) rest
    else create_directory_loop w (done ++ [c]) rest

/-- Source `create_directory` (lines 36-65). -/
def create_directory (w : World) (path : List Char) : World × Int :=
  let temp := xstrdup path
  let r := create_directory_loop w [] temp
  if r.2 ≠ 0 then r
  else
    let m := mkdir r.1 temp
    if m.2 ≠ 0 ∧ m.2 ≠ EEXIST then (perror m.1 "mkdir failed".toList m.2, -1)
    else (m.1, 0)

/-! ## The alias store -/

/-- Source `get_home_dir` (lines 69-89). -/
def get_home_dir (w : World) : Option (List Char) :=
  match getenv w "HOME".toList with
  | some home_dir => some home_dir
  | none => w.pw_dir

def EXECDIR_FILE : List Char := ".execdir.db".toList

/-- Source `get_execdir_file_path` (lines 92-111). -/
def get_execdir_file_path (w : World) : Run (List Char) :=
  match get_home_dir w with
  | none => .exit EXIT_FAILURE (print_error w "cannot get the home directory\n".toList)
  | some home_dir => .ret (c_str home_dir ++ '/' :: EXECDIR_FILE) w

/-- Source struct `LMDB_Database` (lines 213-217): the open transaction, as the
table it sees and the flags it was begun with. -/
structure LMDB_Database where
  txn : Table
  flags : Nat
deriving DecidableEq

/-- Source `handle_error` (lines 219-225). -/
def handle_error (rc : Int) (w : World) : Run Unit :=
  if rc ≠ 0 then
    .exit EXIT_FAILURE (fputs_stderr w ("Error: ".toList ++ mdb_strerror rc ++ ['\n']))
  else .ret () w

/-- Source `open_or_create_lmdb_database` (lines 227-263).  The environment
calls (`mdb_env_create`, `mdb_env_set_mapsize`, `mdb_env_open`,
`mdb_txn_begin`, `mdb_open`) return 0 in the model, so each `handle_error`
after them returns. -/
def open_or_create_lmdb_database (path : List Char) (flags : Nat) (w : World) :
    Run LMDB_Database :=
  let w1 := (create_directory w path).1
  match handle_error 0 w1 with
  | .exit s w2 => .exit s w2
  | .ret _ w2 => .ret { txn := w2.db, flags := flags } w2

/-- LMDB `mdb_txn_commit`: a read-write transaction writes its table back. -/
def mdb_txn_commit (db : LMDB_Database) (w : World) : World :=
  if db.flags = MDB_RDONLY then w else { w with db := db.txn }

/-- Source `close_lmdb_database` (lines 265-273). -/
def close_lmdb_database (db : LMDB_Database) (w : World) : World :=
  mdb_txn_commit db w

/-- The key or data built from a C string: its bytes and the terminator
(`mv_size = strlen(s) + 1`). -/
def mv_of_str (s : List Char) : MDB_val := c_str s ++ [NUL]

/-- Source `get_string_value` (lines 275-301).  The result is the returned
buffer as the caller reads it; `none` is NULL.  Data of size 0 would make
line 291 write before the buffer; `put_string_value` never stores such data. -/
def get_string_value (db : LMDB_Database) (key_str : List Char) (w : World) :
    Run (Option (List Char)) :=
  let key := mv_of_str key_str
  let r := mdb_get db.txn key
  if r.1 = 0 then
    let value := r.2.set (r.2.length - 1) NUL
    .ret (some (c_str value)) w
  else if r.1 = MDB_NOTFOUND then .ret none w
  else
    match handle_error r.1 (mdb_txn_commit db w) with
    | .exit s w1 => .exit s w1
    | .ret _ w1 => .ret none w1

/-- Source `put_string_value` (lines 303-318). -/
def put_string_value (db : LMDB_Database) (key_str value_str : List Char) (w : World) :
    Run LMDB_Database :=
  let key := mv_of_str key_str
  let data := mv_of_str value_str
  let r := mdb_put db.flags db.txn key data
  match handle_error r.1 w with
  | .exit s w1 => .exit s w1
  | .ret _ w1 => .ret { db with txn := r.2 } w1

/-- Source `drop_string_value` (lines 321-333). -/
def drop_string_value (db : LMDB_Database) (key_str : List Char) (w : World) :
    Run LMDB_Database :=
  let key := mv_of_str key_str
  let r := mdb_del db.flags db.txn key
  match handle_error r.1 w with
  | .exit s w1 => .exit s w1
  | .ret _ w1 => .ret { db with txn := r.2 } w1

/-- Source `get_path_by_name` (lines 335-340). -/
def get_path_by_name (execdir name : List Char) (w : World) : Run (Option (List Char)) :=
  match open_or_create_lmdb_database execdir MDB_RDONLY w with
  | .exit s w1 => .exit s w1
  | .ret db w1 =>
    match get_string_value db name w1 with
    | .exit s w2 => .exit s w2
    | .ret value w2 => .ret value (close_lmdb_database db w2)

/-- Source `drop_path_by_name` (lines 342-347). -/
def drop_path_by_name (execdir name : List Char) (w : World) : Run Unit :=
  match open_or_create_lmdb_database execdir 0 w with
  | .exit s w1 => .exit s w1
  | .ret db w1 =>
    match drop_string_value db name w1 with
    | .exit s w2 => .exit s w2
    | .ret db2 w2 => .ret () (close_lmdb_database db2 w2)

/-- Source `add_alias_to_db` (lines 349-354). -/
def add_alias_to_db (execdir name value : List Char) (w : World) : Run Unit :=
  match open_or_create_lmdb_database execdir 0 w with
  | .exit s w1 => .exit s w1
  | .ret db w1 =>
    match put_string_value db name value w1 with
    | .exit s w2 => .exit s w2
    | .ret db2 w2 => .ret () (close_lmdb_database db2 w2)

/-- One `printf("%.*s:%.*s\n", ...)` of the listing (lines 366-368). -/
def list_line (key value : MDB_val) : List Char :=
  printf_prec ((key.length : Int) - 1) key ++ ':' ::
    printf_prec ((value.length : Int) - 1) value ++ ['\n']

/-- The `while` loop of `list_keys_and_values_db` (lines 365-369): `cursor` is
what `mdb_cursor_get(..., MDB_NEXT)` has yet to return. -/
def list_keys_and_values_loop (w : World) : Table → World
  | [] => w
  | (key, value) :: cursor =>
    list_keys_and_values_loop (fputs_stdout w (list_line key value)) cursor

/-- Source `list_keys_and_values_db` (lines 356-374). -/
def list_keys_and_values_db (db : LMDB_Database) (w : World) : Run Unit :=
  match handle_error 0 w with
  | .exit s w1 => .exit s w1
  | .ret _ w1 => .ret () (list_keys_and_values_loop w1 db.txn)

/-- Source `list_keys_and_values` (lines 376-381). -/
def list_keys_and_values (execdir : List Char) (w : World) : Run Unit :=
  match open_or_create_lmdb_database execdir MDB_RDONLY w with
  | .exit s w1 => .exit s w1
  | .ret db w1 =>
    match list_keys_and_values_db db w1 with
    | .exit s w2 => .exit s w2
    | .ret _ w2 => .ret () (close_lmdb_database db w2)

/-! ## The command line -/

def USAGE : List Char :=
  ("Usage: execdir [-h] [-v] [-s] [-a] [-a] [-p] [-n NAME PATH] [-r NAME] [-g NAME] [-l] " ++
   "[ARGS...]").toList

def VERSION : List Char := "0.4.0".toList

/-- How a run of `main` ends: `exit(status)`, the process image replaced by
`execvp(argv[0], argv)`, or `system(cmd)` whose status becomes the exit status. -/
inductive Outcome where
  | exited (status : Nat) (w : World)
  | execvp (argv : List (List Char)) (w : World)
  | system (cmd : List Char) (w : World)
deriving DecidableEq

/-- The state an outcome is reached in. -/
def Outcome.world : Outcome → World
  | .exited _ w => w
  | .execvp _ w => w
  | .system _ w => w

/-- Source `argv_to_str` (lines 133-157). -/
def argv_to_str : List (List Char) → List Char
  | [] => []
  | [a] => c_str a
  | a :: b :: rest => c_str a ++ ' ' :: argv_to_str (b :: rest)

/-- Source `sh_exec_cmd` (lines 159-178), up to the `system` call. -/
def sh_exec_cmd (argv : List (List Char)) (w : World) : Outcome :=
  .system (argv_to_str argv) w

/-- Source `exec_cmd` (lines 180-190), up to the `execvp` call. -/
def exec_cmd (argv : List (List Char)) (w : World) : Outcome :=
  .execvp argv w

/-- Source `usage_message` (lines 192-195). -/
def usage_message (w : World) : Outcome :=
  .exited EXIT_FAILURE (fputs_stderr w (USAGE ++ ['\n']))

/-- Source `help_message` (lines 197-211). -/
def help_message (w : World) : Outcome :=
  .exited EXIT_SUCCESS (fputs_stdout w (USAGE ++ ("\n\n" ++
    "Options:\n" ++
    "  -h            display this help and exit\n" ++
    "  -v            output version information and exit\n" ++
    "  -s            execute the command as a shell command\n" ++
    "  -n NAME PATH  add an alias for a path\n" ++
    "  -r NAME       remove an alias\n" ++
    "  -a            use aliases (-aa for using only aliases)\n" ++
    "  -g NAME       get alias variable\n" ++
    "  -p            create directory if absent\n" ++
    "  -l            list all aliases\n\n" ++
    "Report bugs to <https://github.com/qr243vbi/execdir/issues>\n").toList))

/-- The option variables of `main` (lines 389-397). -/
structure Opts where
  help_opt : Nat := 0
  version_opt : Nat := 0
  get_alias_opt : Nat := 0
  sh_exec_opt : Nat := 0
  add_alias_opt : Nat := 0
  rm_alias_opt : Nat := 0
  ls_alias_opt : Nat := 0
  use_alias_opt : Nat := 0
  mkdir_opt : Nat := 0
deriving DecidableEq

/-- The `getopt` loop of `main` (lines 399-431) over the option characters
`getopt` returns, in order; `none` is the `exit(EXIT_FAILURE)` of case `?`. -/
def getopt_loop (o : Opts) : List Char → Option Opts
  | [] => some o
  | opt :: rest =>
    if opt = 'g' then getopt_loop { o with get_alias_opt := 1 } rest
    else if opt = 'h' then getopt_loop { o with help_opt := 1 } rest
    else if opt = 'v' then getopt_loop { o with version_opt := 1 } rest
    else if opt = 's' then getopt_loop { o with sh_exec_opt := 1 } rest
    else if opt = 'a' then getopt_loop { o with use_alias_opt := o.use_alias_opt + 1 } rest
    else if opt = 'p' then getopt_loop { o with mkdir_opt := 1 } rest
    else if opt = 'n' then getopt_loop { o with add_alias_opt := 1 } rest
    else if opt = 'r' then getopt_loop { o with rm_alias_opt := 1 } rest
    else if opt = 'l' then getopt_loop { o with ls_alias_opt := 1 } rest
    else if opt = '?' then none
    else getopt_loop o rest

/-- Label `alias_stat_exec_0` of `main` (lines 515-519): the path is not an
existing directory. -/
def alias_stat_exec_0 (mkdir_opt : Nat) (path : List Char) (w : World) : Run (List Char) :=
  if mkdir_opt = 1 then
    let r := create_directory w path
    if r.2 ≠ 0 then
      .exit EXIT_FAILURE
        (print_error r.1 ("path \"".toList ++ c_str path ++ "\" not found\n".toList))
    else .ret path r.1
  else .ret path w

/-- Label `alias_stat_exec_2` of `main` (lines 503-521): the alias lookup. -/
def alias_stat_exec_2 (use_alias_opt mkdir_opt : Nat) (execdir_file_path path : List Char)
    (w : World) : Run (List Char) :=
  let name := path
  match get_path_by_name execdir_file_path name w with
  | .exit s w1 => .exit s w1
  | .ret none w1 =>
    let w2 := if use_alias_opt = 1 then print_error w1 "path or ".toList else w1
    .exit EXIT_FAILURE
      (print_error w2 ("alias for path \"".toList ++ c_str name ++ "\" not found\n".toList))
  | .ret (some path) w1 =>
    if !is_dir w1 path then alias_stat_exec_0 mkdir_opt path w1
    else .ret path w1

/-- Lines 495-522 of `main`: from the path argument to the directory to change
into. -/
def main_resolve (use_alias_opt mkdir_opt : Nat) (execdir_file_path path : List Char)
    (w : World) : Run (List Char) :=
  if use_alias_opt > 1 then alias_stat_exec_2 use_alias_opt mkdir_opt execdir_file_path path w
  else if !is_dir w path then
    if use_alias_opt = 0 then alias_stat_exec_0 mkdir_opt path w
    else alias_stat_exec_2 use_alias_opt mkdir_opt execdir_file_path path w
  else .ret path w

/-- Lines 524-542 of `main`: change directory, export `OLDPWD` and `PWD`, hand
over to the command. -/
def main_launch (sh_exec_opt : Nat) (path : List Char) (argv : List (List Char))
    (w : World) : Outcome :=
  match xgetcwd w with
  | none =>
    .exited EXIT_FAILURE (print_error w "cannot get the current working directory\n".toList)
  | some cwd =>
    match chdir w path with
    | .error errno =>
      .exited EXIT_FAILURE
        (print_error w ("cannot change \"".toList ++ c_str path ++ "\" directory: ".toList ++
          strerror errno ++ ['\n']))
    | .ok w1 =>
      let w2 := setenv w1 "OLDPWD".toList cwd
      let w3 := setenv w2 "PWD".toList path
      if sh_exec_opt ≠ 0 then sh_exec_cmd argv w3 else exec_cmd argv w3

/-- Lines 447-476 of `main`: the alias subcommands; `none` when no subcommand
option was given (`goto skip_success`). -/
def main_alias_cmds (o : Opts) (execdir_file_path : List Char) (argv : List (List Char))
    (w : World) : Option Outcome :=
  if o.add_alias_opt ≠ 0 then
    match argv with
    | name :: value :: _ =>
      match add_alias_to_db execdir_file_path name value w with
      | .exit s w1 => some (.exited s w1)
      | .ret _ w1 =>
        let w2 := if o.mkdir_opt = 1 then (create_directory w1 value).1 else w1
        some (.exited EXIT_SUCCESS w2)
    | _ => some (.exited EXIT_FAILURE (print_error w "-a requires two arguments\n".toList))
  else if o.rm_alias_opt ≠ 0 then
    match argv with
    | name :: _ =>
      match drop_path_by_name execdir_file_path name w with
      | .exit s w1 => some (.exited s w1)
      | .ret _ w1 => some (.exited EXIT_SUCCESS w1)
    | _ => some (.exited EXIT_FAILURE (print_error w "-r requires one argument\n".toList))
  else if o.get_alias_opt ≠ 0 then
    match argv with
    | name :: _ =>
      match get_path_by_name execdir_file_path name w with
      | .exit s w1 => some (.exited s w1)
      | .ret value w1 =>
        let value := match value with
          | none => "(null)".toList
          | some v => v
        some (.exited EXIT_SUCCESS (fputs_stdout w1 (c_str value ++ ['\n'])))
    | _ => some (.exited EXIT_FAILURE (print_error w "-r requires one argument\n".toList))
  else if o.ls_alias_opt ≠ 0 then
    match list_keys_and_values execdir_file_path w with
    | .exit s w1 => some (.exited s w1)
    | .ret _ w1 => some (.exited EXIT_SUCCESS w1)
  else none

/-- Source `main` (lines 383-543).  `optchars` are the option characters
`getopt` returns, `argv` the arguments left after `argv += optind`. -/
def main (optchars : List Char) (argv : List (List Char)) (w : World) : Outcome :=
  match getopt_loop {} optchars with
  | none => .exited EXIT_FAILURE w
  | some o =>
    if o.help_opt ≠ 0 then help_message w
    else if o.version_opt ≠ 0 then
      .exited EXIT_SUCCESS (fputs_stdout w ("execdir version ".toList ++ VERSION ++ ['\n']))
    else
      match get_execdir_file_path w with
      | .exit s w1 => .exited s w1
      | .ret execdir_file_path w1 =>
        match main_alias_cmds o execdir_file_path argv w1 with
        | some out => out
        | none =>
          match argv with
          | path :: arg :: rest =>
            match main_resolve o.use_alias_opt o.mkdir_opt execdir_file_path path w1 with
            | .exit s w2 => .exited s w2
            | .ret path w2 => main_launch o.sh_exec_opt path (arg :: rest) w2
          | _ => usage_message w1

/-! ## Projections used in the statements -/

/-- The value a run returns; `none` when it called `exit`. -/
def Run.val {α : Type} : Run α → Option α
  | .ret a _ => some a
  | .exit _ _ => none

/-- The exit status of an outcome; `none` when the command was launched. -/
def Outcome.status : Outcome → Option Nat
  | .exited s _ => some s
  | _ => none

/-- The name has a record in the table. -/
def has_alias (t : Table) (name : List Char) : Prop := ∃ r ∈ t, r.1 = mv_of_str name

instance (t : Table) (name : List Char) : Decidable (has_alias t name) := by
  unfold has_alias
  infer_instance

/-- No two records of the table have the same key, as in every LMDB table. -/
def keys_unique (t : Table) : Prop := (t.map Prod.fst).Nodup

instance (t : Table) : Decidable (keys_unique t) := by
  unfold keys_unique
  infer_instance

/-- The records of the table are in strictly ascending key order, as a cursor
of LMDB returns them. -/
def table_sorted (t : Table) : Prop := t.Pairwise (fun r s => mdb_cmp_lt r.1 s.1 = true)

/-- The options leave `main` to resolve the path: no help, version or alias
subcommand option was given. -/
def launch_opts (o : Opts) : Prop :=
  o.help_opt = 0 ∧ o.version_opt = 0 ∧ o.add_alias_opt = 0 ∧ o.rm_alias_opt = 0 ∧
  o.get_alias_opt = 0 ∧ o.ls_alias_opt = 0

instance (o : Opts) : Decidable (launch_opts o) := by
  unfold launch_opts
  infer_instance

/-- The store directory of a user whose home directory is `home`. -/
def store_path (home : List Char) : List Char := c_str home ++ '/' :: EXECDIR_FILE

/-- A sample state: directories `/home`, `/home/u`, `/home/u/.execdir.db`, `/tmp`
and `/tmp/myproject`, the file `/home/notes`, working directory `/home`,
`HOME=/home/u`, an empty store. -/
def demo_world : World :=
  { dirs := [["home".toList], ["u".toList, "home".toList],
             [".execdir.db".toList, "u".toList, "home".toList],
             ["tmp".toList], ["myproject".toList, "tmp".toList]],
    files := [["notes".toList, "home".toList]],
    cwd := ["home".toList],
    path_max := some 4096,
    env := [("HOME".toList, "/home/u".toList)],
    pw_dir := none,
    db := [],
    stdout := [],
    stderr := [],
    mkdirs := [] }

/-- The sample state with three aliases stored: `proj` for `/tmp/myproject`, `u`
for `/tmp` and `old` for the missing `/tmp/gone`. -/
def demo_world_aliases : World :=
  { demo_world with
    db := [("old".toList ++ [NUL], "/tmp/gone".toList ++ [NUL]),
           ("proj".toList ++ [NUL], "/tmp/myproject".toList ++ [NUL]),
           ("u".toList ++ [NUL], "/tmp".toList ++ [NUL])] }

/-- Two states that differ at most in the directories, the log of `mkdir`
calls and stderr. -/
def same_but_dirs (w w1 : World) : Prop :=
  w1.files = w.files ∧ w1.cwd = w.cwd ∧ w1.path_max = w.path_max ∧ w1.env = w.env ∧
  w1.pw_dir = w.pw_dir ∧ w1.db = w.db ∧ w1.stdout = w.stdout

/-! ## Pathnames and the directory tree -/

/-- Two states with the same directory tree and working directory. -/
def same_tree (w w1 : World) : Prop :=
  w1.dirs = w.dirs ∧ w1.files = w.files ∧ w1.cwd = w.cwd

/-- The second state has every directory of the first, the same files and the
same working directory. -/
def grows (w w1 : World) : Prop :=
  (∀ l, isDir w l = true → isDir w1 l = true) ∧ w1.files = w.files ∧ w1.cwd = w.cwd

/-- Every directory of the tree has its parent in the tree, and the working
directory is in the tree. -/
def tree_ok (w : World) : Prop :=
  (∀ l ∈ w.dirs, isDir w l.tail = true) ∧ isDir w w.cwd = true

instance (w : World) : Decidable (tree_ok w) := by
  unfold tree_ok
  infer_instance

/-- Pathname resolution up to, and without, the component being read: the
directory reached and the bytes of that component (last first). -/
def scan (w : World) : Loc → List Char → List Char → Except Nat (Loc × List Char)
  | cur, acc, [] => .ok (cur, acc)
  | cur, acc, c :: rest =>
    if c = '/' then
      match step w cur acc.reverse with
      | .ok l => scan w l [] rest
      | .error e => .error e
    else scan w cur (c :: acc) rest

/-- Where the components of a pathname lead, one place per slash and one for
the end, regardless of what exists. -/
def lexwalk : Loc → List Char → List Char → List Loc
  | cur, acc, [] => [lexstep cur acc.reverse]
  | cur, acc, c :: rest =>
    if c = '/' then lexstep cur acc.reverse :: lexwalk (lexstep cur acc.reverse) [] rest
    else lexwalk cur (c :: acc) rest

/-- The places on the way of a pathname that hold something other than a
directory. -/
def files_on_way (w : World) (path : List Char) : List Loc :=
  (lexwalk (start_dir w path) [] path).filter (fun l => isFile w l)

/-- The pathnames `create_directory` is to call `mkdir` on while it is at `rest`
with `done` behind it: `done` and what follows it up to a slash, unless empty. -/
def loop_targets (done rest : List Char) : List (List Char) :=
  (rest.inits.filter (fun q => decide (done ++ q ≠ []) && (q ++ ['/']).isPrefixOf rest)).map
    (fun q => done ++ q)

/-- Every non-empty part of the pathname that ends right before a slash,
shortest first, then the pathname itself. -/
def mkdir_targets (path : List Char) : List (List Char) :=
  path.inits.filter (fun q => decide (q ≠ []) && (q ++ ['/']).isPrefixOf path) ++ [path]

/-- Every call of the log succeeded or found the pathname existing. -/
def log_ok (log : List (List Char × Nat)) : Prop := ∀ e ∈ log, e.2 = 0 ∨ e.2 = EEXIST

/-! ## Sequences of alias operations -/

/-- An alias operation of the command line: `-n NAME PATH` adds, `-r NAME`
removes. -/
inductive AliasOp where
  | add (name path : List Char)
  | remove (name : List Char)
deriving DecidableEq

/-- Neither the name nor the path of the operation has a NUL byte. -/
def AliasOp.nulfree : AliasOp → Prop
  | .add name path => NUL ∉ name ∧ NUL ∉ path
  | .remove name => NUL ∉ name

instance (op : AliasOp) : Decidable op.nulfree := by
  cases op <;> (unfold AliasOp.nulfree; infer_instance)

/-- The table after one alias operation. -/
def table_after (t : Table) : AliasOp → Table
  | .add name path => table_put t (mv_of_str name) (mv_of_str path)
  | .remove name => table_del t (mv_of_str name)

/-- The state one alias operation ends in, through the source functions. -/
def run_op (execdir : List Char) (w : World) : AliasOp → World
  | .add name path => (add_alias_to_db execdir name path w).world
  | .remove name => (drop_path_by_name execdir name w).world

/-- The state after a sequence of alias operations, first to last. -/
def run_ops (execdir : List Char) (w : World) (ops : List AliasOp) : World :=
  ops.foldl (run_op execdir) w

/-- The mapping after one more operation, in the spec's words: a Put maps the
name to the path (last write wins), a Delete leaves the name unmapped. -/
def live_step (m : List Char → Option (List Char)) : AliasOp → List Char → Option (List Char)
  | .add name path => fun n => if n = name then some path else m n
  | .remove name => fun n => if n = name then none else m n

/-- The live pairs after a sequence of Puts and Deletes on an empty mapping,
in the spec's words. -/
def live_pairs (ops : List AliasOp) : List Char → Option (List Char) :=
  ops.foldl live_step (fun _ => none)

/-- The (name, path) pairs of the records, terminators stripped. -/
def stored_pairs (t : Table) : List (List Char × List Char) :=
  t.map (fun r => (r.1.dropLast, r.2.dropLast))

/-- The table holds exactly the pairs of the mapping, each as a record of two
NUL-terminated strings, in key order. -/
def store_matches (t : Table) (m : List Char → Option (List Char)) : Prop :=
  table_sorted t ∧
  (∀ r ∈ t, ∃ n p, NUL ∉ n ∧ NUL ∉ p ∧ r = (n ++ [NUL], p ++ [NUL])) ∧
  (∀ n p, m n = some p ↔ NUL ∉ n ∧ NUL ∉ p ∧ (n ++ [NUL], p ++ [NUL]) ∈ t)

/-- The line `name:path` of the listing. -/
def alias_line (e : List Char × List Char) : List Char := e.1 ++ ':' :: e.2 ++ ['\n']

/-! ## C strings -/

theorem c_str_of_nulfree (s : List Char) (h : NUL ∉ s) : c_str s = s := by
  induction s with
  | nil => rfl
  | cons a s ih =>
    have ha : a ≠ NUL := fun e => h (e ▸ List.mem_cons_self _ _)
    have hs : NUL ∉ s := fun m => h (List.mem_cons_of_mem _ m)
    have ih2 := ih hs
    unfold c_str at ih2 ⊢
    simp [List.takeWhile_cons, ha, ih2]

theorem c_str_nulfree (s : List Char) : NUL ∉ c_str s := by
  induction s with
  | nil => simp [c_str]
  | cons a s ih =>
    unfold c_str at ih ⊢
    by_cases ha : a = NUL
    · simp [List.takeWhile_cons, ha]
    · simp only [List.takeWhile_cons, bne_iff_ne, ne_eq, ha, not_false_eq_true, ite_true,
        List.mem_cons, not_or]
      exact ⟨fun e => ha e.symm, ih⟩

theorem c_str_append_nul (s : List Char) (h : NUL ∉ s) (t : List Char) :
    c_str (s ++ NUL :: t) = s := by
  induction s with
  | nil => simp [c_str, List.takeWhile]
  | cons a s ih =>
    have ha : a ≠ NUL := fun e => h (e ▸ List.mem_cons_self _ _)
    have hs : NUL ∉ s := fun m => h (List.mem_cons_of_mem _ m)
    have ih2 := ih hs
    unfold c_str at ih2 ⊢
    simp [List.takeWhile_cons, ha, ih2]

/-- What `get_string_value` hands back for data stored by `put_string_value`. -/
theorem read_back (p : List Char) (h : NUL ∉ p) :
    c_str ((p ++ [NUL]).set ((p ++ [NUL]).length - 1) NUL) = p := by
  have : (p ++ [NUL]).set ((p ++ [NUL]).length - 1) NUL = p ++ [NUL] := by
    simp [List.set_append]
  rw [this]
  exact c_str_append_nul p h []

/-! ## The table -/

theorem mdb_get_table_put (t : Table) (key data : MDB_val) :
    mdb_get (table_put t key data) key = (0, data) := by
  induction t with
  | nil => simp [table_put, mdb_get]
  | cons r t ih =>
    obtain ⟨k, v⟩ := r
    unfold table_put
    by_cases h1 : k = key
    · simp [h1, mdb_get]
    · by_cases h2 : mdb_cmp_lt key k = true
      · simp [h1, h2, mdb_get]
      · simp [h1, h2, mdb_get, ih]

theorem mdb_get_notfound_iff (t : Table) (key : MDB_val) :
    (mdb_get t key).1 = MDB_NOTFOUND ↔ ∀ r ∈ t, r.1 ≠ key := by
  induction t with
  | nil => simp [mdb_get]
  | cons r t ih =>
    obtain ⟨k, v⟩ := r
    unfold mdb_get
    by_cases h1 : k = key
    · simp [h1, MDB_NOTFOUND]
    · simp [h1, ih]

theorem mdb_get_rc (t : Table) (key : MDB_val) :
    (mdb_get t key).1 = 0 ∨ (mdb_get t key).1 = MDB_NOTFOUND := by
  induction t with
  | nil => simp [mdb_get]
  | cons r t ih =>
    obtain ⟨k, v⟩ := r
    unfold mdb_get
    by_cases h1 : k = key
    · simp [h1]
    · simpa [h1] using ih

/-! ## What the directory calls leave alone -/

theorem same_but_dirs_refl (w : World) : same_but_dirs w w := by
  simp [same_but_dirs]

theorem same_but_dirs_trans {a b c : World} (h1 : same_but_dirs a b) (h2 : same_but_dirs b c) :
    same_but_dirs a c := by
  obtain ⟨a1, a2, a3, a4, a5, a6, a7⟩ := h1
  obtain ⟨b1, b2, b3, b4, b5, b6, b7⟩ := h2
  exact ⟨b1.trans a1, b2.trans a2, b3.trans a3, b4.trans a4, b5.trans a5, b6.trans a6,
    b7.trans a7⟩

theorem mkdir_same (w : World) (p : List Char) : same_but_dirs w (mkdir w p).1 := by
  unfold mkdir
  simp only
  split
  · simp [same_but_dirs]
  · split
    · simp [same_but_dirs]
    · split_ifs <;> simp [same_but_dirs]

theorem perror_same (w : World) (m : List Char) (e : Nat) : same_but_dirs w (perror w m e) := by
  simp [same_but_dirs, perror, fputs_stderr]

theorem create_directory_loop_same (rest : List Char) :
    ∀ (w : World) (done : List Char), same_but_dirs w (create_directory_loop w done rest).1 := by
  induction rest with
  | nil => intro w done; simp [create_directory_loop, same_but_dirs_refl]
  | cons c rest ih =>
    intro w done
    simp only [create_directory_loop]
    by_cases h1 : c = '/' ∧ done ≠ []
    · rw [if_pos h1]
      by_cases h2 : (mkdir w done).2 ≠ 0 ∧ (mkdir w done).2 ≠ EEXIST
      · rw [if_pos h2]
        exact same_but_dirs_trans (mkdir_same w done) (perror_same _ _ _)
      · rw [if_neg h2]
        exact same_but_dirs_trans (mkdir_same w done) (ih _ _)
    · rw [if_neg h1]
      exact ih _ _

theorem create_directory_same (w : World) (path : List Char) :
    same_but_dirs w (create_directory w path).1 := by
  unfold create_directory
  simp only
  split_ifs
  · exact create_directory_loop_same _ _ _
  · exact same_but_dirs_trans (create_directory_loop_same _ _ _)
      (same_but_dirs_trans (mkdir_same _ _) (perror_same _ _ _))
  · exact same_but_dirs_trans (create_directory_loop_same _ _ _) (mkdir_same _ _)

theorem create_directory_db (w : World) (path : List Char) :
    (create_directory w path).1.db = w.db := (create_directory_same w path).2.2.2.2.2.1

/-! ## The store wrappers, unfolded -/

theorem open_eq (path : List Char) (flags : Nat) (w : World) :
    open_or_create_lmdb_database path flags w =
      .ret { txn := w.db, flags := flags } (create_directory w path).1 := by
  simp [open_or_create_lmdb_database, handle_error, create_directory_db]

theorem add_alias_to_db_eq (execdir name value : List Char) (w : World) :
    add_alias_to_db execdir name value w =
      .ret () { (create_directory w execdir).1 with
        db := table_put w.db (mv_of_str name) (mv_of_str value) } := by
  simp [add_alias_to_db, open_eq, put_string_value, mdb_put, MDB_RDONLY, handle_error,
    close_lmdb_database, mdb_txn_commit]

theorem get_path_by_name_eq (execdir name : List Char) (w : World) :
    get_path_by_name execdir name w =
      .ret (if (mdb_get w.db (mv_of_str name)).1 = 0 then
              some (c_str ((mdb_get w.db (mv_of_str name)).2.set
                ((mdb_get w.db (mv_of_str name)).2.length - 1) NUL))
            else none)
        (create_directory w execdir).1 := by
  rcases mdb_get_rc w.db (mv_of_str name) with h | h
  · simp [get_path_by_name, open_eq, get_string_value, h, close_lmdb_database,
      mdb_txn_commit]
  · simp [get_path_by_name, open_eq, get_string_value, h, close_lmdb_database,
      mdb_txn_commit, MDB_NOTFOUND]

/-! ## Lookup and removal, unfolded -/

theorem has_alias_iff (t : Table) (name : List Char) :
    has_alias t name ↔ (mdb_get t (mv_of_str name)).1 = 0 := by
  constructor
  · intro h
    rcases mdb_get_rc t (mv_of_str name) with h0 | h1
    · exact h0
    · obtain ⟨r, hr, hk⟩ := h
      exact absurd hk ((mdb_get_notfound_iff t _).1 h1 r hr)
  · intro h
    by_contra hn
    have : (mdb_get t (mv_of_str name)).1 = MDB_NOTFOUND :=
      (mdb_get_notfound_iff t _).2 (fun r hr hk => hn ⟨r, hr, hk⟩)
    rw [h] at this
    exact absurd this (by decide)

theorem mdb_get_of_mem (t : Table) (key data : MDB_val) (hu : keys_unique t)
    (hm : (key, data) ∈ t) : mdb_get t key = (0, data) := by
  induction t with
  | nil => cases hm
  | cons r t ih =>
    obtain ⟨k, v⟩ := r
    unfold keys_unique at hu
    simp only [List.map_cons, List.nodup_cons, List.mem_map, Prod.exists, exists_and_right,
      exists_eq_right, not_exists] at hu
    unfold mdb_get
    rcases List.mem_cons.1 hm with h | h
    · cases h
      simp
    · have hk : k ≠ key := fun e => hu.1 data (e ▸ h)
      rw [if_neg hk]
      exact ih hu.2 h

theorem get_path_by_name_absent (execdir name : List Char) (w : World)
    (h : ¬ has_alias w.db name) :
    get_path_by_name execdir name w = .ret none (create_directory w execdir).1 := by
  rw [get_path_by_name_eq, if_neg (fun h0 => h ((has_alias_iff _ _).2 h0))]

theorem get_path_by_name_stored (execdir name path : List Char) (w : World)
    (hu : keys_unique w.db) (hp : NUL ∉ path)
    (hm : (mv_of_str name, mv_of_str path) ∈ w.db) :
    get_path_by_name execdir name w = .ret (some path) (create_directory w execdir).1 := by
  rw [get_path_by_name_eq, mdb_get_of_mem _ _ _ hu hm, if_pos rfl]
  simp only [mv_of_str, c_str_of_nulfree path hp, read_back path hp]

theorem drop_path_by_name_absent (execdir name : List Char) (w : World)
    (h : ¬ has_alias w.db name) :
    drop_path_by_name execdir name w =
      .exit EXIT_FAILURE (fputs_stderr (create_directory w execdir).1
        "Error: MDB_NOTFOUND: No matching key/data pair found\n".toList) := by
  have h0 : ¬ (mdb_get w.db (mv_of_str name)).1 = 0 := fun e => h ((has_alias_iff _ _).2 e)
  simp only [drop_path_by_name, open_eq, drop_string_value, mdb_del, h0, if_false]
  rfl

theorem drop_path_by_name_present (execdir name : List Char) (w : World)
    (h : has_alias w.db name) :
    drop_path_by_name execdir name w =
      .ret () { (create_directory w execdir).1 with db := table_del w.db (mv_of_str name) } := by
  have h0 : (mdb_get w.db (mv_of_str name)).1 = 0 := (has_alias_iff _ _).1 h
  simp only [drop_path_by_name, open_eq, drop_string_value, mdb_del, h0, if_true]
  rfl

/-! ## `main`, unfolded -/

theorem get_execdir_file_path_eq (w : World) (home : List Char)
    (hhome : get_home_dir w = some home) :
    get_execdir_file_path w = .ret (store_path home) w := by
  simp [get_execdir_file_path, hhome, store_path]

theorem main_alias_cmds_none (o : Opts) (e : List Char) (argv : List (List Char)) (w : World)
    (ho : launch_opts o) : main_alias_cmds o e argv w = none := by
  obtain ⟨_, _, h3, h4, h5, h6⟩ := ho
  simp [main_alias_cmds, h3, h4, h5, h6]

/-- With no help, version or alias subcommand option and at least a path and a
command, `main` resolves the path and launches the command. -/
theorem main_launch_eq (optchars : List Char) (o : Opts) (w : World)
    (home path arg : List Char) (rest : List (List Char))
    (hopt : getopt_loop {} optchars = some o) (ho : launch_opts o)
    (hhome : get_home_dir w = some home) :
    main optchars (path :: arg :: rest) w =
      match main_resolve o.use_alias_opt o.mkdir_opt (store_path home) path w with
      | .exit s w2 => .exited s w2
      | .ret p w2 => main_launch o.sh_exec_opt p (arg :: rest) w2 := by
  unfold main
  rw [hopt]
  simp only [ho.1, ho.2.1, ne_eq, not_true_eq_false, if_false,
    get_execdir_file_path_eq w home hhome, main_alias_cmds_none o _ _ _ ho]

/-! ## The key order -/

theorem mdb_cmp_lt_irrefl (a : MDB_val) : mdb_cmp_lt a a = false := by
  induction a with
  | nil => rfl
  | cons x a ih => simp [mdb_cmp_lt, ih]

theorem mdb_cmp_lt_trans :
    ∀ a b c : MDB_val, mdb_cmp_lt a b = true → mdb_cmp_lt b c = true → mdb_cmp_lt a c = true
  | [], [], _, h, _ => by simp [mdb_cmp_lt] at h
  | [], _ :: _, [], _, h => by simp [mdb_cmp_lt] at h
  | [], _ :: _, _ :: _, _, _ => by simp [mdb_cmp_lt]
  | _ :: _, [], _, h, _ => by simp [mdb_cmp_lt] at h
  | _ :: _, _ :: _, [], _, h => by simp [mdb_cmp_lt] at h
  | x :: a, y :: b, z :: c, h1, h2 => by
    unfold mdb_cmp_lt at h1 h2 ⊢
    by_cases hxy : x.toNat < y.toNat
    · by_cases hyz : y.toNat < z.toNat
      · have : x.toNat < z.toNat := by omega
        simp [this]
      · by_cases hzy : z.toNat < y.toNat
        · simp [hyz, hzy] at h2
        · have : x.toNat < z.toNat := by omega
          simp [this]
    · by_cases hyx : y.toNat < x.toNat
      · simp [hxy, hyx] at h1
      · simp only [hxy, hyx, if_false] at h1
        by_cases hyz : y.toNat < z.toNat
        · have : x.toNat < z.toNat := by omega
          simp [this]
        · by_cases hzy : z.toNat < y.toNat
          · simp [hyz, hzy] at h2
          · simp only [hyz, hzy, if_false] at h2
            have h3 : ¬ x.toNat < z.toNat := by omega
            have h4 : ¬ z.toNat < x.toNat := by omega
            simp only [h3, h4, if_false]
            exact mdb_cmp_lt_trans a b c h1 h2

theorem char_eq_of_toNat_eq (x y : Char) (h : x.toNat = y.toNat) : x = y := by
  apply Char.ext
  apply UInt32.ext
  simpa [Char.toNat, UInt32.toNat] using h

theorem mdb_cmp_lt_total :
    ∀ a b : MDB_val, a ≠ b → mdb_cmp_lt a b = false → mdb_cmp_lt b a = true
  | [], [], h, _ => absurd rfl h
  | [], _ :: _, _, h => by simp [mdb_cmp_lt] at h
  | _ :: _, [], _, _ => by simp [mdb_cmp_lt]
  | x :: a, y :: b, hne, h => by
    unfold mdb_cmp_lt at h ⊢
    by_cases hxy : x.toNat < y.toNat
    · simp [hxy] at h
    · by_cases hyx : y.toNat < x.toNat
      · simp [hyx]
      · simp only [hxy, hyx, if_false] at h ⊢
        have hxe : x = y := char_eq_of_toNat_eq x y (by omega)
        have hab : a ≠ b := fun e => hne (by rw [hxe, e])
        exact mdb_cmp_lt_total a b hab h

/-! ## Records of the table under `mdb_put` and `mdb_del` -/

theorem table_sorted_cons (r : MDB_val × MDB_val) (t : Table) :
    table_sorted (r :: t) ↔ (∀ s ∈ t, mdb_cmp_lt r.1 s.1 = true) ∧ table_sorted t := by
  simp [table_sorted, List.pairwise_cons]

theorem keys_unique_of_sorted (t : Table) (h : table_sorted t) : keys_unique t := by
  induction t with
  | nil => simp [keys_unique]
  | cons r t ih =>
    rw [table_sorted_cons] at h
    unfold keys_unique at ih ⊢
    simp only [List.map_cons, List.nodup_cons, List.mem_map, not_exists, not_and]
    refine ⟨?_, ih h.2⟩
    intro s hs he
    have := h.1 s hs
    rw [he, mdb_cmp_lt_irrefl] at this
    exact absurd this (by decide)

theorem mem_table_put (t : Table) (key data : MDB_val) (r : MDB_val × MDB_val)
    (hs : table_sorted t) :
    r ∈ table_put t key data ↔ r = (key, data) ∨ (r ∈ t ∧ r.1 ≠ key) := by
  induction t with
  | nil => simp [table_put]
  | cons a t ih =>
    obtain ⟨k, v⟩ := a
    rw [table_sorted_cons] at hs
    have hlt_ne : ∀ x y : MDB_val, mdb_cmp_lt x y = true → y ≠ x := by
      intro x y hxy e
      rw [e, mdb_cmp_lt_irrefl] at hxy
      exact absurd hxy (by decide)
    unfold table_put
    by_cases h1 : k = key
    · subst h1
      simp only [if_true, List.mem_cons]
      constructor
      · rintro (h | h)
        · exact Or.inl h
        · exact Or.inr ⟨Or.inr h, hlt_ne _ _ (hs.1 r h)⟩
      · rintro (h | ⟨h | h, hne⟩)
        · exact Or.inl h
        · exact absurd (by rw [h]) hne
        · exact Or.inr h
    · rw [if_neg h1]
      by_cases h2 : mdb_cmp_lt key k = true
      · rw [if_pos h2]
        simp only [List.mem_cons]
        constructor
        · rintro (h | h | h)
          · exact Or.inl h
          · exact Or.inr ⟨Or.inl h, by rw [h]; exact h1⟩
          · exact Or.inr ⟨Or.inr h, hlt_ne _ _ (mdb_cmp_lt_trans _ _ _ h2 (hs.1 r h))⟩
        · rintro (h | ⟨h | h, _⟩)
          · exact Or.inl h
          · exact Or.inr (Or.inl h)
          · exact Or.inr (Or.inr h)
      · rw [if_neg h2]
        simp only [List.mem_cons, ih hs.2]
        constructor
        · rintro (h | h | ⟨h, hne⟩)
          · exact Or.inr ⟨Or.inl h, by rw [h]; exact h1⟩
          · exact Or.inl h
          · exact Or.inr ⟨Or.inr h, hne⟩
        · rintro (h | ⟨h | h, hne⟩)
          · exact Or.inr (Or.inl h)
          · exact Or.inl h
          · exact Or.inr (Or.inr ⟨h, hne⟩)

theorem table_sorted_put (t : Table) (key data : MDB_val) (hs : table_sorted t) :
    table_sorted (table_put t key data) := by
  induction t with
  | nil => simp [table_put, table_sorted]
  | cons a t ih =>
    obtain ⟨k, v⟩ := a
    have hs0 := hs
    rw [table_sorted_cons] at hs
    unfold table_put
    by_cases h1 : k = key
    · subst h1
      rw [if_pos rfl, table_sorted_cons]
      exact hs
    · rw [if_neg h1]
      by_cases h2 : mdb_cmp_lt key k = true
      · rw [if_pos h2, table_sorted_cons]
        refine ⟨?_, hs0⟩
        intro s hm
        rcases List.mem_cons.1 hm with h | h
        · rw [h]; exact h2
        · exact mdb_cmp_lt_trans _ _ _ h2 (hs.1 s h)
      · rw [if_neg h2, table_sorted_cons]
        refine ⟨?_, ih hs.2⟩
        intro s hm
        rcases (mem_table_put t key data s hs.2).1 hm with h | ⟨h, _⟩
        · rw [h]
          exact mdb_cmp_lt_total key k (fun e => h1 e.symm) (by simpa using h2)
        · exact hs.1 s h

theorem mem_table_del (t : Table) (key : MDB_val) (r : MDB_val × MDB_val)
    (hs : table_sorted t) :
    r ∈ table_del t key ↔ r ∈ t ∧ r.1 ≠ key := by
  induction t with
  | nil => simp [table_del]
  | cons a t ih =>
    obtain ⟨k, v⟩ := a
    rw [table_sorted_cons] at hs
    unfold table_del
    by_cases h1 : k = key
    · subst h1
      simp only [if_true, List.mem_cons]
      constructor
      · intro h
        refine ⟨Or.inr h, ?_⟩
        intro e
        have := hs.1 r h
        rw [e, mdb_cmp_lt_irrefl] at this
        exact absurd this (by decide)
      · rintro ⟨h | h, hne⟩
        · exact absurd (by rw [h]) hne
        · exact h
    · rw [if_neg h1]
      simp only [List.mem_cons, ih hs.2]
      constructor
      · rintro (h | ⟨h, hne⟩)
        · exact ⟨Or.inl h, by rw [h]; exact h1⟩
        · exact ⟨Or.inr h, hne⟩
      · rintro ⟨h | h, hne⟩
        · exact Or.inl h
        · exact Or.inr ⟨h, hne⟩

theorem table_sorted_del (t : Table) (key : MDB_val) (hs : table_sorted t) :
    table_sorted (table_del t key) := by
  induction t with
  | nil => simp [table_del, table_sorted]
  | cons a t ih =>
    obtain ⟨k, v⟩ := a
    rw [table_sorted_cons] at hs
    unfold table_del
    by_cases h1 : k = key
    · rw [if_pos h1]; exact hs.2
    · rw [if_neg h1, table_sorted_cons]
      refine ⟨?_, ih hs.2⟩
      intro s hm
      exact hs.1 s ((mem_table_del t key s hs.2).1 hm).1

/-! ## The store after a sequence of operations -/

theorem table_del_absent (t : Table) (key : MDB_val) (h : ∀ r ∈ t, r.1 ≠ key) :
    table_del t key = t := by
  induction t with
  | nil => rfl
  | cons a t ih =>
    obtain ⟨k, v⟩ := a
    unfold table_del
    have h1 : k ≠ key := h (k, v) (List.mem_cons_self _ _)
    rw [if_neg h1, ih (fun r hr => h r (List.mem_cons_of_mem _ hr))]

theorem run_op_db (execdir : List Char) (w : World) (op : AliasOp) :
    (run_op execdir w op).db = table_after w.db op := by
  cases op with
  | add name path => simp [run_op, add_alias_to_db_eq, Run.world, table_after]
  | remove name =>
    by_cases h : has_alias w.db name
    · simp [run_op, drop_path_by_name_present _ _ _ h, Run.world, table_after]
    · have habs : ∀ r ∈ w.db, r.1 ≠ mv_of_str name := fun r hr e => h ⟨r, hr, e⟩
      simp [run_op, drop_path_by_name_absent _ _ _ h, Run.world, fputs_stderr,
        create_directory_db, table_del_absent _ _ habs, table_after]

theorem store_matches_step (t : Table) (m : List Char → Option (List Char)) (op : AliasOp)
    (hm : store_matches t m) (hop : op.nulfree) :
    store_matches (table_after t op) (live_step m op) := by
  obtain ⟨hs, hrec, hmap⟩ := hm
  cases op with
  | add name path =>
    obtain ⟨hn, hp⟩ := hop
    simp only [table_after, mv_of_str, c_str_of_nulfree name hn, c_str_of_nulfree path hp]
    refine ⟨table_sorted_put _ _ _ hs, ?_, ?_⟩
    · intro r hr
      rcases (mem_table_put _ _ _ r hs).1 hr with h | ⟨h, _⟩
      · exact ⟨name, path, hn, hp, h⟩
      · exact hrec r h
    · intro n p
      simp only [live_step, mem_table_put _ _ _ _ hs]
      by_cases hx : n = name
      · subst hx
        simp only [if_true, Option.some.injEq, Prod.mk.injEq, true_and, ne_eq,
          not_true_eq_false, and_false, or_false, List.append_left_inj]
        constructor
        · intro h; subst h; exact ⟨hn, hp, rfl⟩
        · intro h; exact h.2.2.symm
      · rw [if_neg hx, hmap n p]
        have hk : ¬ (n ++ [NUL] = name ++ [NUL]) := fun e => hx (List.append_left_inj _ |>.1 e)
        simp [hk]
  | remove name =>
    have hn : NUL ∉ name := hop
    simp only [table_after, mv_of_str, c_str_of_nulfree name hn]
    refine ⟨table_sorted_del _ _ hs, ?_, ?_⟩
    · intro r hr
      exact hrec r ((mem_table_del _ _ r hs).1 hr).1
    · intro n p
      simp only [live_step, mem_table_del _ _ _ hs]
      by_cases hx : n = name
      · subst hx
        simp
      · rw [if_neg hx, hmap n p]
        have hk : ¬ (n ++ [NUL] = name ++ [NUL]) := fun e => hx (List.append_left_inj _ |>.1 e)
        simp [hk]

theorem store_matches_run_ops (execdir : List Char) (ops : List AliasOp) :
    ∀ (w : World) (m : List Char → Option (List Char)), store_matches w.db m →
      (∀ op ∈ ops, op.nulfree) →
      store_matches (run_ops execdir w ops).db (ops.foldl live_step m) := by
  induction ops with
  | nil => intro w m hm _; exact hm
  | cons op ops ih =>
    intro w m hm hnul
    simp only [run_ops, List.foldl_cons]
    apply ih (run_op execdir w op) (live_step m op)
    · rw [run_op_db]
      exact store_matches_step _ _ _ hm (hnul op (List.mem_cons_self _ _))
    · exact fun o ho => hnul o (List.mem_cons_of_mem _ ho)

/-! ## The listing -/

theorem list_loop_stdout (t : Table) :
    ∀ w : World, (list_keys_and_values_loop w t).stdout =
      w.stdout ++ (t.map (fun r => list_line r.1 r.2)).flatten := by
  induction t with
  | nil => intro w; simp [list_keys_and_values_loop]
  | cons r t ih =>
    intro w
    obtain ⟨k, v⟩ := r
    simp [list_keys_and_values_loop, ih, fputs_stdout, List.append_assoc]

theorem list_keys_and_values_eq (execdir : List Char) (w : World) :
    list_keys_and_values execdir w =
      .ret () (list_keys_and_values_loop (create_directory w execdir).1 w.db) := by
  simp [list_keys_and_values, open_eq, list_keys_and_values_db, handle_error,
    close_lmdb_database, mdb_txn_commit]

theorem printf_prec_terminated (s : List Char) (h : NUL ∉ s) :
    printf_prec (((s ++ [NUL]).length : Int) - 1) (s ++ [NUL]) = s := by
  have h1 : (((s ++ [NUL]).length : Int) - 1) = (s.length : Int) := by simp
  rw [h1]
  unfold printf_prec
  have h2 : ¬ ((s.length : Int) < 0) := by omega
  rw [if_neg h2]
  simp [c_str_of_nulfree s h]

theorem list_line_record (n p : List Char) (hn : NUL ∉ n) (hp : NUL ∉ p) :
    list_line (n ++ [NUL]) (p ++ [NUL]) = alias_line (n, p) := by
  unfold list_line alias_line
  rw [printf_prec_terminated n hn, printf_prec_terminated p hp]

/-! ## Pathname resolution looks at the tree only -/

theorem step_same (w w1 : World) (h : same_tree w w1) (cur : Loc) (c : List Char) :
    step w1 cur c = step w cur c := by
  obtain ⟨h1, h2, _⟩ := h
  simp [step, isDir, isFile, h1, h2]

theorem namei_same (w w1 : World) (h : same_tree w w1) (s : List Char) :
    ∀ (cur : Loc) (acc : List Char), namei w1 cur acc s = namei w cur acc s := by
  induction s with
  | nil => intro cur acc; simp [namei, step_same w w1 h]
  | cons c s ih =>
    intro cur acc
    simp only [namei, step_same w w1 h]
    by_cases hc : c = '/'
    · simp only [hc, if_true]
      cases step w cur acc.reverse with
      | ok l => exact ih _ _
      | error e => rfl
    · simp only [hc, if_false]
      exact ih _ _

theorem start_dir_same (w w1 : World) (h : w1.cwd = w.cwd) (p : List Char) :
    start_dir w1 p = start_dir w p := by
  simp [start_dir, h]

theorem is_dir_same (w w1 : World) (h : same_tree w w1) (p : List Char) :
    is_dir w1 p = is_dir w p := by
  unfold is_dir
  cases c_str p with
  | nil => rfl
  | cons a s => simp only [namei_same w w1 h, start_dir_same w w1 h.2.2]

theorem chdir_error_of_not_dir (w : World) (p : List Char) (h : is_dir w p = false) :
    ∃ e, chdir w p = .error e := by
  unfold is_dir at h
  unfold chdir
  cases hp : c_str p with
  | nil => exact ⟨ENOENT, rfl⟩
  | cons a s =>
    rw [hp] at h
    simp only at h ⊢
    cases hn : namei w (start_dir w (a :: s)) [] (a :: s) with
    | ok l => rw [hn] at h; simp at h
    | error e => exact ⟨e, rfl⟩

/-! ## Resolving a part of a pathname -/

theorem step_ok_isDir (w : World) (cur l : Loc) (c : List Char) (h : step w cur c = .ok l) :
    l = lexstep cur c ∧ isDir w l = true := by
  unfold step at h
  by_cases h1 : isDir w (lexstep cur c) = true
  · rw [if_pos h1] at h
    cases h
    exact ⟨rfl, h1⟩
  · rw [if_neg h1] at h
    split_ifs at h

theorem step_of_isDir (w : World) (cur : Loc) (c : List Char)
    (h : isDir w (lexstep cur c) = true) : step w cur c = .ok (lexstep cur c) := by
  simp [step, h]

theorem namei_before_slash (w : World) (pre rest : List Char) :
    ∀ (cur l : Loc) (acc : List Char), namei w cur acc (pre ++ '/' :: rest) = .ok l →
      ∃ l1, namei w cur acc pre = .ok l1 := by
  induction pre with
  | nil =>
    intro cur l acc h
    simp only [List.nil_append, namei, if_true] at h ⊢
    cases hs : step w cur acc.reverse with
    | ok l1 => exact ⟨l1, rfl⟩
    | error e => rw [hs] at h; cases h
  | cons c pre ih =>
    intro cur l acc h
    simp only [List.cons_append, namei] at h ⊢
    by_cases hc : c = '/'
    · simp only [hc, if_true] at h ⊢
      cases hs : step w cur acc.reverse with
      | ok l1 => rw [hs] at h; exact ih _ _ _ h
      | error e => rw [hs] at h; cases h
    · simp only [hc, if_false] at h ⊢
      exact ih _ _ _ h

theorem namei_parent_of_namei (w : World) (p : List Char) :
    ∀ (cur l : Loc) (acc : List Char), namei w cur acc p = .ok l →
      ∃ par c l1, namei_parent w cur acc p = .ok (par, c) ∧ step w par c = .ok l1 := by
  induction p with
  | nil =>
    intro cur l acc h
    exact ⟨cur, acc.reverse, l, rfl, h⟩
  | cons c p ih =>
    intro cur l acc h
    simp only [namei] at h
    simp only [namei_parent]
    by_cases hc : c = '/'
    · simp only [hc, if_true] at h ⊢
      cases hs : step w cur acc.reverse with
      | error e => rw [hs] at h; cases h
      | ok l1 =>
        rw [hs] at h
        by_cases hall : (p.all fun d => decide (d = '/')) = true
        · rw [if_pos hall]
          exact ⟨cur, acc.reverse, l1, rfl, hs⟩
        · rw [if_neg hall]
          exact ih _ _ _ h
    · simp only [hc, if_false] at h ⊢
      exact ih _ _ _ h

/-- A pathname that resolves to a directory exists: `mkdir` gives `EEXIST` and
changes nothing but the log. -/
theorem mkdir_existing (w : World) (p : List Char) (l : Loc) (hnul : NUL ∉ p) (hne : p ≠ [])
    (h : namei w (start_dir w p) [] p = .ok l) :
    mkdir w p = ({ w with mkdirs := w.mkdirs ++ [(p, EEXIST)] }, EEXIST) := by
  obtain ⟨par, c, l1, hpar, hstep⟩ := namei_parent_of_namei w p _ _ _ h
  unfold mkdir
  simp only [c_str_of_nulfree p hnul]
  cases p with
  | nil => exact absurd rfl hne
  | cons a s =>
    simp only [hpar]
    by_cases hc : c = [] ∨ c = ['.'] ∨ c = ['.', '.']
    · rw [if_pos hc]
    · rw [if_neg hc]
      have hl : lexstep par c = c :: par := by
        simp only [not_or] at hc
        simp [lexstep, hc.1, hc.2.1, hc.2.2]
      have hd := (step_ok_isDir w par l1 c hstep).2
      rw [(step_ok_isDir w par l1 c hstep).1, hl] at hd
      rw [if_pos (Or.inl hd)]

theorem start_dir_append (w : World) (p q : List Char) (hne : p ≠ []) :
    start_dir w (p ++ q) = start_dir w p := by
  cases p with
  | nil => exact absurd rfl hne
  | cons a s => rfl

theorem create_directory_loop_existing (rest : List Char) :
    ∀ (w : World) (done : List Char) (l : Loc), NUL ∉ done ++ rest →
      namei w (start_dir w (done ++ rest)) [] (done ++ rest) = .ok l →
      ∃ log, create_directory_loop w done rest = ({ w with mkdirs := w.mkdirs ++ log }, 0) := by
  induction rest with
  | nil =>
    intro w done l _ _
    exact ⟨[], by simp [create_directory_loop]⟩
  | cons c rest ih =>
    intro w done l hnul h
    have hnul2 : NUL ∉ (done ++ [c]) ++ rest := by simpa using hnul
    have h2 : namei w (start_dir w ((done ++ [c]) ++ rest)) [] ((done ++ [c]) ++ rest)
        = .ok l := by simpa using h
    simp only [create_directory_loop]
    by_cases h1 : c = '/' ∧ done ≠ []
    · rw [if_pos h1]
      obtain ⟨hc, hd⟩ := h1
      subst hc
      obtain ⟨l1, hl1⟩ := namei_before_slash w done rest _ _ _ h
      have hdn : NUL ∉ done := fun m => hnul (List.mem_append_left _ m)
      rw [start_dir_append _ done _ hd] at hl1
      rw [mkdir_existing w done l1 hdn hd hl1]
      have hst2 : same_tree w { w with mkdirs := w.mkdirs ++ [(done, EEXIST)] } :=
        ⟨rfl, rfl, rfl⟩
      have hne : ¬ (EEXIST ≠ 0 ∧ EEXIST ≠ EEXIST) := by simp
      simp only [hne, if_false]
      obtain ⟨log, hlog⟩ := ih { w with mkdirs := w.mkdirs ++ [(done, EEXIST)] }
        (done ++ ['/']) l hnul2
        (by rw [namei_same w _ hst2]; exact h2)
      exact ⟨(done, EEXIST) :: log, by rw [hlog]; simp⟩
    · rw [if_neg h1]
      exact ih w (done ++ [c]) l hnul2 h2

/-- On a pathname that is an existing directory `create_directory` returns 0
and changes nothing but the log of `mkdir` calls. -/
theorem create_directory_existing (w : World) (path : List Char)
    (h : is_dir w path = true) :
    ∃ log, create_directory w path = ({ w with mkdirs := w.mkdirs ++ log }, 0) := by
  unfold is_dir at h
  unfold create_directory xstrdup
  have hnul := c_str_nulfree path
  generalize c_str path = p at h hnul
  cases p with
  | nil => simp at h
  | cons a s =>
    simp only at h
    cases hn : namei w (start_dir w (a :: s)) [] (a :: s) with
    | error e => rw [hn] at h; simp at h
    | ok l =>
      obtain ⟨log, hlog⟩ := create_directory_loop_existing (a :: s) w [] l
        (by simpa using hnul) (by simpa using hn)
      have hst2 : same_tree w { w with mkdirs := w.mkdirs ++ log } := ⟨rfl, rfl, rfl⟩
      have hm := mkdir_existing { w with mkdirs := w.mkdirs ++ log } (a :: s) l hnul
        (by simp) (by rw [namei_same w _ hst2]; exact hn)
      simp only [hlog, hm]
      refine ⟨log ++ [(a :: s, EEXIST)], ?_⟩
      simp [EEXIST]

/-! ## Resolution as a scan -/

theorem namei_eq_scan (w : World) (s : List Char) :
    ∀ (cur : Loc) (acc : List Char), namei w cur acc s =
      match scan w cur acc s with
      | .ok (l, a) => step w l a.reverse
      | .error e => .error e := by
  induction s with
  | nil => intro cur acc; rfl
  | cons c s ih =>
    intro cur acc
    simp only [namei, scan]
    by_cases hc : c = '/'
    · simp only [hc, if_true]
      cases step w cur acc.reverse with
      | ok l => exact ih _ _
      | error e => rfl
    · simp only [hc, if_false]
      exact ih _ _

theorem scan_append (w : World) (s t : List Char) :
    ∀ (cur : Loc) (acc : List Char), scan w cur acc (s ++ t) =
      match scan w cur acc s with
      | .ok (l, a) => scan w l a t
      | .error e => .error e := by
  induction s with
  | nil => intro cur acc; rfl
  | cons c s ih =>
    intro cur acc
    simp only [List.cons_append, scan]
    by_cases hc : c = '/'
    · simp only [hc, if_true]
      cases step w cur acc.reverse with
      | ok l => exact ih _ _
      | error e => rfl
    · simp only [hc, if_false]
      exact ih _ _

theorem scan_slashes (w : World) (r : List Char) :
    ∀ (l l1 : Loc) (a : List Char), (r.all fun d => decide (d = '/')) = true →
      scan w l [] r = .ok (l1, a) → a = [] := by
  induction r with
  | nil =>
    intro l l1 a _ h
    simp only [scan] at h
    cases h
    rfl
  | cons c r ih =>
    intro l l1 a hall h
    simp only [List.all_cons, Bool.and_eq_true, decide_eq_true_eq] at hall
    simp only [scan, hall.1, if_true] at h
    cases hs : step w l ([] : List Char).reverse with
    | ok l2 => rw [hs] at h; exact ih _ _ _ hall.2 h
    | error e => rw [hs] at h; cases h

theorem namei_parent_of_scan (w : World) (p : List Char) :
    ∀ (cur l : Loc) (acc a : List Char), scan w cur acc p = .ok (l, a) → a ≠ [] →
      namei_parent w cur acc p = .ok (l, a.reverse) := by
  induction p with
  | nil =>
    intro cur l acc a h _
    simp only [scan] at h
    cases h
    rfl
  | cons c p ih =>
    intro cur l acc a h ha
    simp only [scan] at h
    simp only [namei_parent]
    by_cases hc : c = '/'
    · simp only [hc, if_true] at h ⊢
      cases hs : step w cur acc.reverse with
      | error e => rw [hs] at h; cases h
      | ok l1 =>
        rw [hs] at h
        by_cases hall : (p.all fun d => decide (d = '/')) = true
        · exact absurd (scan_slashes w p _ _ _ hall h) ha
        · rw [if_neg hall]
          exact ih _ _ _ _ h ha
    · simp only [hc, if_false] at h ⊢
      exact ih _ _ _ _ h ha

/-! ## A growing tree -/

theorem grows_refl (w : World) : grows w w := ⟨fun _ h => h, rfl, rfl⟩

theorem grows_trans {a b c : World} (h1 : grows a b) (h2 : grows b c) : grows a c :=
  ⟨fun l h => h2.1 l (h1.1 l h), h2.2.1.trans h1.2.1, h2.2.2.trans h1.2.2⟩

theorem step_grows (w w1 : World) (h : grows w w1) (cur l : Loc) (c : List Char)
    (hs : step w cur c = .ok l) : step w1 cur c = .ok l := by
  obtain ⟨he, hd⟩ := step_ok_isDir w cur l c hs
  rw [he] at hd ⊢
  exact step_of_isDir w1 cur c (h.1 _ hd)

theorem scan_grows (w w1 : World) (h : grows w w1) (s : List Char) :
    ∀ (cur : Loc) (acc : List Char) (x : Loc × List Char), scan w cur acc s = .ok x →
      scan w1 cur acc s = .ok x := by
  induction s with
  | nil => intro cur acc x hx; exact hx
  | cons c s ih =>
    intro cur acc x hx
    simp only [scan] at hx ⊢
    by_cases hc : c = '/'
    · simp only [hc, if_true] at hx ⊢
      cases hs : step w cur acc.reverse with
      | error e => rw [hs] at hx; cases hx
      | ok l =>
        rw [hs] at hx
        rw [step_grows w w1 h _ _ _ hs]
        exact ih _ _ _ hx
    · simp only [hc, if_false] at hx ⊢
      exact ih _ _ _ hx

theorem isDir_tail (w : World) (h : tree_ok w) (cur : Loc) (hc : isDir w cur = true) :
    isDir w cur.tail = true := by
  cases cur with
  | nil => exact hc
  | cons c cur =>
    have hm : (c :: cur) ∈ w.dirs := by simpa [isDir] using hc
    exact h.1 _ hm

theorem isDir_lexstep_special (w : World) (h : tree_ok w) (cur : Loc) (c : List Char)
    (hc : isDir w cur = true) (hs : c = [] ∨ c = ['.'] ∨ c = ['.', '.']) :
    isDir w (lexstep cur c) = true := by
  rcases hs with h1 | h1 | h1
  · simp [lexstep, h1, hc]
  · simp [lexstep, h1, hc]
  · subst h1
    have : lexstep cur ['.', '.'] = cur.tail := by simp [lexstep]
    rw [this]
    exact isDir_tail w h cur hc

/-- One `mkdir` of `create_directory`: when all but the last component of the
pathname resolves and the last component does not lead to a file, the call
gives 0 or `EEXIST`, and afterwards the pathname leads to a directory. -/
theorem mkdir_step (w : World) (p : List Char) (cur : Loc) (acc : List Char)
    (htree : tree_ok w) (hnul : NUL ∉ p) (hne : p ≠ [])
    (hscan : scan w (start_dir w p) [] p = .ok (cur, acc)) (hcur : isDir w cur = true)
    (hfile : isFile w (lexstep cur acc.reverse) = false) :
    ((mkdir w p).2 = 0 ∨ (mkdir w p).2 = EEXIST) ∧ grows w (mkdir w p).1 ∧
    tree_ok (mkdir w p).1 ∧ isDir (mkdir w p).1 (lexstep cur acc.reverse) = true := by
  by_cases ha : acc = []
  · subst ha
    have hl : lexstep cur ([] : List Char).reverse = cur := by simp [lexstep]
    have hn : namei w (start_dir w p) [] p = .ok cur := by
      rw [namei_eq_scan, hscan]
      simp only
      rw [← hl]
      exact step_of_isDir w cur _ (by rw [hl]; exact hcur)
    rw [mkdir_existing w p cur hnul hne hn, hl]
    exact ⟨Or.inr rfl, ⟨fun _ h => h, rfl, rfl⟩, htree, hcur⟩
  · have hpar := namei_parent_of_scan w p _ _ _ _ hscan ha
    have hc0 : acc.reverse ≠ [] := by simpa using ha
    generalize acc.reverse = c at hpar hc0 hfile ⊢
    unfold mkdir
    simp only [c_str_of_nulfree p hnul]
    cases p with
    | nil => exact absurd rfl hne
    | cons x s =>
      simp only [hpar]
      by_cases hc : c = [] ∨ c = ['.'] ∨ c = ['.', '.']
      · rw [if_pos hc]
        exact ⟨Or.inr rfl, ⟨fun _ h => h, rfl, rfl⟩, htree,
          isDir_lexstep_special w htree cur c hcur hc⟩
      · rw [if_neg hc]
        have hl : lexstep cur c = c :: cur := by
          simp only [not_or] at hc
          simp [lexstep, hc.1, hc.2.1, hc.2.2]
        rw [hl] at hfile ⊢
        by_cases hd : isDir w (c :: cur) = true
        · rw [if_pos (Or.inl hd)]
          exact ⟨Or.inr rfl, ⟨fun _ h => h, rfl, rfl⟩, htree, hd⟩
        · have hex : ¬ (isDir w (c :: cur) = true ∨ isFile w (c :: cur) = true) := by
            simp [hd, hfile]
          rw [if_neg hex]
          refine ⟨Or.inl rfl, ⟨?_, rfl, rfl⟩, ⟨?_, ?_⟩, ?_⟩
          · intro l h
            simp only [isDir, Bool.or_eq_true, decide_eq_true_eq, List.mem_cons] at h ⊢
            rcases h with h | h
            · exact Or.inl h
            · exact Or.inr (Or.inr h)
          · intro l hm
            simp only [List.mem_cons] at hm
            simp only [isDir, Bool.or_eq_true, decide_eq_true_eq, List.mem_cons]
            rcases hm with h | h
            · subst h
              have := hcur
              simp only [isDir, Bool.or_eq_true, decide_eq_true_eq] at this
              rcases this with h1 | h1
              · exact Or.inl (by simpa using h1)
              · exact Or.inr (Or.inr (by simpa using h1))
            · have := htree.1 l h
              simp only [isDir, Bool.or_eq_true, decide_eq_true_eq] at this
              rcases this with h1 | h1
              · exact Or.inl h1
              · exact Or.inr (Or.inr h1)
          · have := htree.2
            simp only [isDir, Bool.or_eq_true, decide_eq_true_eq, List.mem_cons] at this ⊢
            rcases this with h1 | h1
            · exact Or.inl h1
            · exact Or.inr (Or.inr h1)
          · simp [isDir]

/-! ## `create_directory` on a pathname with missing directories -/

theorem create_directory_loop_creates (rest : List Char) :
    ∀ (w : World) (done : List Char) (cur : Loc) (acc : List Char),
      tree_ok w → NUL ∉ done ++ rest →
      scan w (start_dir w (done ++ rest)) [] done = .ok (cur, acc) → isDir w cur = true →
      (∀ l ∈ lexwalk cur acc rest, isFile w l = false) →
      ∃ (w1 : World) (cur1 : Loc) (acc1 : List Char),
        create_directory_loop w done rest = (w1, 0) ∧ grows w w1 ∧ tree_ok w1 ∧
        scan w1 (start_dir w (done ++ rest)) [] (done ++ rest) = .ok (cur1, acc1) ∧
        isDir w1 cur1 = true ∧ isFile w1 (lexstep cur1 acc1.reverse) = false := by
  induction rest with
  | nil =>
    intro w done cur acc htree _ hscan hcur hfile
    refine ⟨w, cur, acc, rfl, grows_refl w, htree, by simpa using hscan, hcur, ?_⟩
    exact hfile _ (by simp [lexwalk])
  | cons c rest ih =>
    intro w done cur acc htree hnul hscan hcur hfile
    have hnul2 : NUL ∉ (done ++ [c]) ++ rest := by simpa using hnul
    have happ : (done ++ [c]) ++ rest = done ++ c :: rest := by simp
    simp only [create_directory_loop]
    by_cases hc : c = '/'
    · subst hc
      have hfile0 : isFile w (lexstep cur acc.reverse) = false :=
        hfile _ (by simp [lexwalk])
      have hfile1 : ∀ l ∈ lexwalk (lexstep cur acc.reverse) [] rest, isFile w l = false :=
        fun l hl => hfile l (by simp [lexwalk, hl])
      by_cases hd : done = []
      · subst hd
        simp only [scan] at hscan
        cases hscan
        have hnot : ¬ ('/' = '/' ∧ ([] : List Char) ≠ []) := by simp
        rw [if_neg hnot]
        simp only [List.nil_append] at hcur hfile1 hnul2 ⊢
        have hl : lexstep (start_dir w ('/' :: rest)) ([] : List Char).reverse
            = start_dir w ('/' :: rest) := by simp [lexstep]
        rw [hl] at hfile1
        have hsc : scan w (start_dir w (['/'] ++ rest)) [] ['/']
            = .ok (start_dir w ('/' :: rest), []) := by
          simp only [List.singleton_append, scan, if_true]
          rw [step_of_isDir w _ _ (by rw [hl]; exact hcur), hl]
        obtain ⟨w1, cur1, acc1, h1, h2, h3, h4, h5, h6⟩ :=
          ih w ['/'] _ [] htree hnul2 hsc hcur hfile1
        exact ⟨w1, cur1, acc1, h1, h2, h3, by simpa using h4, h5, h6⟩
      · rw [if_pos ⟨rfl, hd⟩]
        have hdn : NUL ∉ done := fun m => hnul (List.mem_append_left _ m)
        have hst : start_dir w (done ++ '/' :: rest) = start_dir w done :=
          start_dir_append w done _ hd
        rw [hst] at hscan
        obtain ⟨hrc, hg, ht, hdir⟩ := mkdir_step w done cur acc htree hdn hd hscan hcur hfile0
        have hgo : ¬ ((mkdir w done).2 ≠ 0 ∧ (mkdir w done).2 ≠ EEXIST) := by
          rcases hrc with h | h <;> simp [h]
        simp only [hgo, if_false]
        have hsd : start_dir (mkdir w done).1 ((done ++ ['/']) ++ rest) = start_dir w done := by
          rw [start_dir_same w _ hg.2.2, happ, hst]
        have hsc : scan (mkdir w done).1 (start_dir (mkdir w done).1 ((done ++ ['/']) ++ rest))
            [] (done ++ ['/']) = .ok (lexstep cur acc.reverse, []) := by
          rw [hsd, scan_append, scan_grows w _ hg done _ _ _ hscan]
          simp only [scan, if_true]
          rw [step_of_isDir _ _ _ hdir]
        have hfile2 : ∀ l ∈ lexwalk (lexstep cur acc.reverse) [] rest,
            isFile (mkdir w done).1 l = false := by
          intro l hl
          have := hfile1 l hl
          simpa [isFile, hg.2.1] using this
        obtain ⟨w1, cur1, acc1, h1, h2, h3, h4, h5, h6⟩ :=
          ih (mkdir w done).1 (done ++ ['/']) _ [] ht hnul2 hsc hdir hfile2
        refine ⟨w1, cur1, acc1, h1, grows_trans hg h2, h3, ?_, h5, h6⟩
        rw [hsd, happ] at h4
        rw [hst]
        exact h4
    · have hnot : ¬ (c = '/' ∧ done ≠ []) := fun h => hc h.1
      rw [if_neg hnot]
      have hsc : scan w (start_dir w ((done ++ [c]) ++ rest)) [] (done ++ [c])
          = .ok (cur, c :: acc) := by
        rw [happ, scan_append, hscan]
        simp [scan, hc]
      have hfile1 : ∀ l ∈ lexwalk cur (c :: acc) rest, isFile w l = false :=
        fun l hl => hfile l (by simp [lexwalk, hc, hl])
      obtain ⟨w1, cur1, acc1, h1, h2, h3, h4, h5, h6⟩ :=
        ih w (done ++ [c]) cur (c :: acc) htree hnul2 hsc hcur hfile1
      exact ⟨w1, cur1, acc1, h1, h2, h3, by simpa using h4, h5, h6⟩

theorem isDir_start_dir (w : World) (h : tree_ok w) (p : List Char) :
    isDir w (start_dir w p) = true := by
  unfold start_dir
  split_ifs
  · rfl
  · exact h.2

/-- On a pathname with no file on its way `create_directory` returns 0; the
tree has grown and the pathname is a directory. -/
theorem create_directory_creates (w : World) (path : List Char) (htree : tree_ok w)
    (hnul : NUL ∉ path) (hne : path ≠ []) (hfiles : files_on_way w path = []) :
    (create_directory w path).2 = 0 ∧ grows w (create_directory w path).1 ∧
    tree_ok (create_directory w path).1 ∧ is_dir (create_directory w path).1 path = true := by
  have hfile : ∀ l ∈ lexwalk (start_dir w path) [] path, isFile w l = false := by
    intro l hl
    unfold files_on_way at hfiles
    have := List.filter_eq_nil_iff.1 hfiles l hl
    simpa using this
  obtain ⟨w1, cur1, acc1, h1, h2, h3, h4, h5, h6⟩ :=
    create_directory_loop_creates path w [] (start_dir w path) [] htree (by simpa using hnul)
      rfl (isDir_start_dir w htree _) hfile
  simp only [List.nil_append] at h1 h4
  have hsd : start_dir w1 path = start_dir w path := start_dir_same w w1 h2.2.2 path
  rw [← hsd] at h4
  obtain ⟨hrc, hg, ht, hdir⟩ := mkdir_step w1 path cur1 acc1 h3 hnul hne h4 h5 h6
  have hgo : ¬ ((mkdir w1 path).2 ≠ 0 ∧ (mkdir w1 path).2 ≠ EEXIST) := by
    rcases hrc with h | h <;> simp [h]
  have hcd : create_directory w path = ((mkdir w1 path).1, 0) := by
    unfold create_directory xstrdup
    simp only [c_str_of_nulfree path hnul, h1, ne_eq, not_true_eq_false, if_false, hgo]
  rw [hcd]
  refine ⟨rfl, grows_trans h2 hg, ht, ?_⟩
  unfold is_dir
  rw [c_str_of_nulfree path hnul]
  cases path with
  | nil => exact absurd rfl hne
  | cons a s =>
    simp only
    have hsd2 : start_dir (mkdir w1 (a :: s)).1 (a :: s) = start_dir w1 (a :: s) :=
      start_dir_same w1 _ hg.2.2 _
    rw [namei_eq_scan, hsd2, scan_grows w1 _ hg _ _ _ _ h4]
    simp only
    rw [step_of_isDir _ _ _ hdir]

/-! ## The `mkdir` calls of `create_directory` -/

theorem loop_targets_nil (done : List Char) : loop_targets done [] = [] := by
  simp [loop_targets, List.isPrefixOf]

theorem loop_targets_cons (done : List Char) (c : Char) (rest : List Char) :
    loop_targets done (c :: rest) =
      (if c = '/' ∧ done ≠ [] then [done] else []) ++ loop_targets (done ++ [c]) rest := by
  unfold loop_targets
  have h1 : (List.filter
      ((fun q => decide (done ++ q ≠ []) && (q ++ ['/']).isPrefixOf (c :: rest)) ∘
        fun q => c :: q) rest.inits) =
      List.filter (fun q => decide (done ++ [c] ++ q ≠ []) && (q ++ ['/']).isPrefixOf rest)
        rest.inits := by
    apply List.filter_congr
    intro q _
    simp [List.isPrefixOf]
  have h2 : ((fun q => done ++ q) ∘ fun q => c :: q) = fun q => done ++ [c] ++ q := by
    funext q
    simp
  have hhead : (decide (done ++ [] ≠ []) && ([] ++ ['/']).isPrefixOf (c :: rest)) =
      decide (c = '/' ∧ done ≠ []) := by
    have hp : ([] ++ ['/']).isPrefixOf (c :: rest) = decide (c = '/') := by
      by_cases hc : c = '/'
      · subst hc
        simp [List.isPrefixOf]
      · have hb : ('/' == c) = false := by
          rw [beq_eq_false_iff_ne]
          exact fun e => hc e.symm
        simp [List.isPrefixOf, hb, hc]
    rw [hp]
    by_cases hc : c = '/' <;> by_cases hd : done = [] <;> simp [hc, hd]
  rw [List.inits_cons, List.filter_cons, hhead, List.filter_map, h1]
  by_cases hc : c = '/' ∧ done ≠ []
  · rw [if_pos (by simpa using hc), if_pos hc, List.map_cons, List.map_map, h2]
    simp
  · rw [if_neg (by simpa using hc), if_neg hc, List.map_map, h2]
    simp

theorem mkdir_targets_eq (path : List Char) :
    mkdir_targets path = loop_targets [] path ++ [path] := by
  simp [mkdir_targets, loop_targets]

theorem mkdir_log (w : World) (p : List Char) :
    (mkdir w p).1.mkdirs = w.mkdirs ++ [(c_str p, (mkdir w p).2)] := by
  unfold mkdir
  simp only
  split
  · rfl
  · split
    · rfl
    · split_ifs <;> rfl

theorem perror_mkdirs (w : World) (m : List Char) (e : Nat) :
    (perror w m e).mkdirs = w.mkdirs := rfl

theorem create_directory_loop_log (rest : List Char) :
    ∀ (w : World) (done : List Char), NUL ∉ done ++ rest →
      ∃ log, (create_directory_loop w done rest).1.mkdirs = w.mkdirs ++ log ∧
        (((create_directory_loop w done rest).2 = 0 ∧
            log.map Prod.fst = loop_targets done rest ∧ log_ok log) ∨
         ((create_directory_loop w done rest).2 = -1 ∧
            ∃ good t e, log = good ++ [(t, e)] ∧ log_ok good ∧ e ≠ 0 ∧ e ≠ EEXIST ∧
              ∃ tail, loop_targets done rest = log.map Prod.fst ++ tail)) := by
  induction rest with
  | nil =>
    intro w done _
    exact ⟨[], by simp [create_directory_loop],
      Or.inl ⟨rfl, by simp [loop_targets_nil], by simp [log_ok]⟩⟩
  | cons c rest ih =>
    intro w done hnul
    have hnul2 : NUL ∉ (done ++ [c]) ++ rest := by simpa using hnul
    have hdn : NUL ∉ done := fun m => hnul (List.mem_append_left _ m)
    simp only [create_directory_loop, loop_targets_cons]
    by_cases h1 : c = '/' ∧ done ≠ []
    · obtain ⟨hc, hd⟩ := h1
      subst hc
      have h1 : '/' = '/' ∧ done ≠ [] := ⟨rfl, hd⟩
      simp only [h1, and_self, if_true, ne_eq, not_false_eq_true]
      have hlog := mkdir_log w done
      rw [c_str_of_nulfree done hdn] at hlog
      by_cases h2 : ¬ (mkdir w done).2 = 0 ∧ ¬ (mkdir w done).2 = EEXIST
      · rw [if_pos h2]
        refine ⟨[(done, (mkdir w done).2)], by rw [perror_mkdirs, hlog], Or.inr ⟨rfl, ?_⟩⟩
        exact ⟨[], done, (mkdir w done).2, rfl, by simp [log_ok], h2.1, h2.2,
          ⟨loop_targets (done ++ ['/']) rest, by simp⟩⟩
      · rw [if_neg h2]
        obtain ⟨log, hl, hcase⟩ := ih (mkdir w done).1 (done ++ ['/'])
          hnul2
        have hok : (mkdir w done).2 = 0 ∨ (mkdir w done).2 = EEXIST := by
          by_cases h0 : (mkdir w done).2 = 0
          · exact Or.inl h0
          · by_cases h3 : (mkdir w done).2 = EEXIST
            · exact Or.inr h3
            · exact absurd ⟨h0, h3⟩ h2
        refine ⟨(done, (mkdir w done).2) :: log, ?_, ?_⟩
        · rw [hl, hlog]; simp
        · rcases hcase with ⟨hrc, hmap, hlok⟩ | ⟨hrc, good, t, e, hg, hgok, he0, he1, tail, ht⟩
          · refine Or.inl ⟨hrc, by simp [hmap], ?_⟩
            intro x hx
            rcases List.mem_cons.1 hx with h | h
            · rw [h]; exact hok
            · exact hlok x h
          · refine Or.inr ⟨hrc, (done, (mkdir w done).2) :: good, t, e, by simp [hg], ?_,
              he0, he1, tail, ?_⟩
            · intro x hx
              rcases List.mem_cons.1 hx with h | h
              · rw [h]; exact hok
              · exact hgok x h
            · rw [ht]; simp
    · rw [if_neg h1, if_neg h1]
      simpa using ih w (done ++ [c]) hnul2

/-- The calls of `create_directory`, from its loop and its last line. -/
theorem create_directory_log (w : World) (path : List Char) :
    ∃ log, (create_directory w path).1.mkdirs = w.mkdirs ++ log ∧
      (((create_directory w path).2 = 0 ∧
          log.map Prod.fst = mkdir_targets (c_str path) ∧ log_ok log) ∨
       ((create_directory w path).2 = -1 ∧
          ∃ good t e, log = good ++ [(t, e)] ∧ log_ok good ∧ e ≠ 0 ∧ e ≠ EEXIST ∧
            ∃ tail, mkdir_targets (c_str path) = log.map Prod.fst ++ tail)) := by
  have hnul := c_str_nulfree path
  unfold create_directory xstrdup
  rw [mkdir_targets_eq]
  generalize c_str path = p at hnul
  obtain ⟨log, hl, hcase⟩ := create_directory_loop_log p w [] (by simpa using hnul)
  rcases hcase with ⟨hrc, hmap, hlok⟩ | ⟨hrc, good, t, e, hg, hgok, he0, he1, tail, ht⟩
  · have hm := mkdir_log (create_directory_loop w [] p).1 p
    rw [c_str_of_nulfree p hnul, hl] at hm
    simp only [hrc, ne_eq, not_true_eq_false, if_false]
    by_cases h2 : ¬ (mkdir (create_directory_loop w [] p).1 p).2 = 0 ∧
        ¬ (mkdir (create_directory_loop w [] p).1 p).2 = EEXIST
    · rw [if_pos h2]
      refine ⟨log ++ [(p, (mkdir (create_directory_loop w [] p).1 p).2)], ?_, Or.inr ⟨rfl, ?_⟩⟩
      · rw [perror_mkdirs, hm, List.append_assoc]
      · exact ⟨log, p, _, rfl, hlok, h2.1, h2.2, [], by simp [hmap]⟩
    · rw [if_neg h2]
      have hok : (mkdir (create_directory_loop w [] p).1 p).2 = 0 ∨
          (mkdir (create_directory_loop w [] p).1 p).2 = EEXIST := by
        by_cases h0 : (mkdir (create_directory_loop w [] p).1 p).2 = 0
        · exact Or.inl h0
        · by_cases h3 : (mkdir (create_directory_loop w [] p).1 p).2 = EEXIST
          · exact Or.inr h3
          · exact absurd ⟨h0, h3⟩ h2
      refine ⟨log ++ [(p, (mkdir (create_directory_loop w [] p).1 p).2)], ?_, Or.inl ⟨rfl, ?_, ?_⟩⟩
      · rw [hm, List.append_assoc]
      · simp [hmap]
      · intro x hx
        rcases List.mem_append.1 hx with h | h
        · exact hlok x h
        · simp only [List.mem_singleton] at h
          rw [h]; exact hok
  · have hne : (create_directory_loop w [] p).2 ≠ 0 := by rw [hrc]; decide
    simp only [hne, ne_eq, not_false_eq_true, if_true]
    exact ⟨log, hl, Or.inr ⟨hrc, good, t, e, hg, hgok, he0, he1, tail ++ [p], by
      rw [ht, List.append_assoc]⟩⟩

/-- When a pathname is a directory, so is each part of it that `create_directory`
calls `mkdir` on. -/
theorem is_dir_targets (w : World) (path : List Char) (hnul : NUL ∉ path)
    (h : is_dir w path = true) : ∀ t ∈ mkdir_targets path, is_dir w t = true := by
  intro t ht
  unfold mkdir_targets at ht
  rcases List.mem_append.1 ht with hm | hm
  · simp only [List.mem_filter, Bool.and_eq_true, decide_eq_true_eq] at hm
    obtain ⟨_, hne, hpre⟩ := hm
    obtain ⟨r, hr⟩ := List.isPrefixOf_iff_prefix.1 hpre
    have hr2 : path = t ++ '/' :: r := by rw [← hr]; simp
    have htn : NUL ∉ t := fun m => hnul (by rw [hr2]; exact List.mem_append_left _ m)
    unfold is_dir at h ⊢
    rw [c_str_of_nulfree path hnul] at h
    rw [c_str_of_nulfree t htn]
    cases t with
    | nil => exact absurd rfl hne
    | cons a s =>
      subst hr2
      simp only [List.cons_append] at h
      simp only
      cases hn : namei w (start_dir w (a :: (s ++ '/' :: r))) [] (a :: (s ++ '/' :: r)) with
      | error e => rw [hn] at h; simp at h
      | ok l =>
        obtain ⟨l1, hl1⟩ := namei_before_slash w (a :: s) r _ _ _ hn
        have : start_dir w (a :: (s ++ '/' :: r)) = start_dir w (a :: s) := rfl
        rw [this] at hl1
        rw [hl1]
  · simp only [List.mem_singleton] at hm
    rw [hm]; exact h

/-- Every alias lookup leaves a trace: it opens the store, which calls `mkdir`
on the store directory at least once. -/
theorem get_path_by_name_logs (execdir name : List Char) (w : World) :
    (get_path_by_name execdir name w).world.mkdirs ≠ w.mkdirs := by
  rw [get_path_by_name_eq]
  simp only [Run.world]
  obtain ⟨log, hl, hcase⟩ := create_directory_log w execdir
  rw [hl]
  have hne : log ≠ [] := by
    rcases hcase with ⟨_, hmap, _⟩ | ⟨_, good, t, e, hg, _⟩
    · intro h
      rw [h, mkdir_targets] at hmap
      simp at hmap
    · rw [hg]; simp
  intro h
  exact hne (by simpa using h)

/-- Claim C3: at alias-usage level 0 or 1, a target that is an existing
directory is the resolved path itself, whatever the store holds and whether or
not creation was asked for; the state is left as it was, while a lookup would
have left its `mkdir` call on the store directory in the log, and `main` goes
on to launch in that state. -/
theorem existing_directory_wins (w : World) (execdir target : List Char)
    (use_alias_opt mkdir_opt : Nat) (hlevel : use_alias_opt ≤ 1)
    (hdir : is_dir w target = true) :
    main_resolve use_alias_opt mkdir_opt execdir target w = .ret target w ∧
    (∀ name : List Char, (get_path_by_name execdir name w).world.mkdirs ≠ w.mkdirs) ∧
    ∀ (optchars : List Char) (o : Opts) (home arg : List Char) (rest : List (List Char)),
      getopt_loop {} optchars = some o → launch_opts o → o.use_alias_opt = use_alias_opt →
      get_home_dir w = some home →
      main optchars (target :: arg :: rest) w = main_launch o.sh_exec_opt target (arg :: rest) w := by
  have key : ∀ (e : List Char) (m : Nat), main_resolve use_alias_opt m e target w = .ret target w := by
    intro e m
    have h1 : ¬ use_alias_opt > 1 := by omega
    simp [main_resolve, h1, hdir]
  refine ⟨key _ _, fun name => get_path_by_name_logs execdir name w, ?_⟩
  intro optchars o home arg rest hopt ho hl hhome
  rw [main_launch_eq optchars o w home target arg rest hopt ho hhome, hl, key]

theorem existing_directory_wins_witness :
    main_resolve 1 1 (store_path "/home/u".toList) "u".toList demo_world_aliases
      = .ret "u".toList demo_world_aliases :=
  (existing_directory_wins demo_world_aliases (store_path "/home/u".toList) "u".toList 1 1
    (by decide) (by decide)).1

/-- Claim C5 at a failing input: in the sample state (no directory `proj` in
the working directory, no alias `proj`) the run `execdir -a proj ls` fails with
the text `execdir: path or execdir: alias for path "proj" not found` on
stderr: the name of the program stands again between `path or` and `alias`.
The lookup itself works: after `execdir -n proj /tmp/myproject` the same run
changes into `/tmp/myproject` and launches `ls`. -/
theorem fallback_miss_message :
    is_dir demo_world "proj".toList = false ∧
    ¬ has_alias demo_world.db "proj".toList ∧
    (main ['a'] ["proj".toList, "ls".toList] demo_world).status = some EXIT_FAILURE ∧
    (main ['a'] ["proj".toList, "ls".toList] demo_world).world.stderr =
      "execdir: path or execdir: alias for path \"proj\" not found\n".toList ∧
    (main ['a'] ["proj".toList, "ls".toList] demo_world).world.stderr ≠
      "execdir: path or alias for path \"proj\" not found\n".toList ∧
    (main ['a', 'a'] ["proj".toList, "ls".toList] demo_world).world.stderr =
      "execdir: alias for path \"proj\" not found\n".toList ∧
    (main ['n'] ["proj".toList, "/tmp/myproject".toList] demo_world).status
      = some EXIT_SUCCESS ∧
    (main ['a'] ["proj".toList, "ls".toList]
      (main ['n'] ["proj".toList, "/tmp/myproject".toList] demo_world).world).status = none ∧
    (main ['a'] ["proj".toList, "ls".toList]
      (main ['n'] ["proj".toList, "/tmp/myproject".toList] demo_world).world).world.cwd
        = ["myproject".toList, "tmp".toList] := by
  decide

/-- Claim C9 at a failing input: from the working directory `/home` of the
sample state, `execdir u ls` changes into `/home/u` and launches `ls` with
`OLDPWD=/home` and `PWD=u`, while the new working directory is `/home/u`. -/
theorem relative_path_pwd :
    main [] ["u".toList, "ls".toList] demo_world =
      .execvp ["ls".toList]
        (setenv (setenv { demo_world with cwd := ["u".toList, "home".toList] }
          "OLDPWD".toList "/home".toList) "PWD".toList "u".toList) ∧
    getenv (main [] ["u".toList, "ls".toList] demo_world).world "OLDPWD".toList
      = some "/home".toList ∧
    getenv (main [] ["u".toList, "ls".toList] demo_world).world "PWD".toList
      = some "u".toList ∧
    xgetcwd (main [] ["u".toList, "ls".toList] demo_world).world = some "/home/u".toList := by
  decide

end Execdir
